import Mathlib

set_option maxHeartbeats 1000000

/- Verification development for the dependency-update core:
   version comparison (src/versions.rs), manifest and workflow patching
   (src/updater.rs) and the two-strategy commit pipeline (src/git.rs).
   Strings are modeled as lists of characters (`Chars`). -/

abbrev Chars := List Char

/- ── src/versions.rs ─────────────────────────────────────────────────── -/

/-- The delimiters of `v.split(['.', '-', '+'])` in `parse_semver`. -/
def isDelim (c : Char) : Bool := c = '.' || c = '-' || c = '+'

/-- Rust `str::split` with the three delimiters: `n` delimiter occurrences
produce `n + 1` (possibly empty) fields. -/
def splitOnDelims : Chars → List Chars
  | [] => [[]]
  | c :: rest =>
    if isDelim c then [] :: splitOnDelims rest
    else
      match splitOnDelims rest with
      | [] => [[c]]
      | s :: ss => (c :: s) :: ss

/-- Numeric value of a digit string (base 10). -/
def digitsVal (s : Chars) : Nat := s.foldl (fun a c => a * 10 + (c.toNat - 48)) 0

/-- Rust `p.parse::<u64>().unwrap_or(0)` for a delimiter-free field: the parse
succeeds exactly on nonempty all-ASCII-digit strings whose value fits in `u64`
(`'+'` and `'-'` cannot occur in a field, they are split delimiters); any
failure — including positive overflow — is coerced to 0 by `unwrap_or(0)`. -/
def parseField (s : Chars) : Nat :=
  if s ≠ [] ∧ s.all Char.isDigit = true ∧ digitsVal s < 2 ^ 64 then digitsVal s else 0

/-- `parse_semver` from src/versions.rs: split on `.`/`-`/`+`, take the first
three fields, parse each with `unwrap_or(0)`, pad missing fields with 0. -/
def parse_semver (v : Chars) : Nat × Nat × Nat :=
  let parts := ((splitOnDelims v).take 3).map parseField
  (parts.headD 0, (parts.drop 1).headD 0, (parts.drop 2).headD 0)

/-- Rust's derived `>` on `(u64, u64, u64)`: strict lexicographic order. -/
def tripleGt (x y : Nat × Nat × Nat) : Bool :=
  decide (y.1 < x.1) ||
    (decide (x.1 = y.1) &&
      (decide (y.2.1 < x.2.1) || (decide (x.2.1 = y.2.1) && decide (y.2.2 < x.2.2))))

/-- `needs_update` from src/versions.rs: `parse_semver(latest) > parse_semver(current)`. -/
def needs_update (current latest : Chars) : Bool :=
  tripleGt (parse_semver latest) (parse_semver current)

/-- Strict lexicographic order on triples, as a proposition. -/
def lexGt (x y : Nat × Nat × Nat) : Prop :=
  y.1 < x.1 ∨ (x.1 = y.1 ∧ (y.2.1 < x.2.1 ∨ (x.2.1 = y.2.1 ∧ y.2.2 < x.2.2)))

instance (x y : Nat × Nat × Nat) : Decidable (lexGt x y) := by
  unfold lexGt; infer_instance

/-- The (major, minor, patch) triple exactly as the claim words it: split the
string on `.`, `-`, `+`, take the first three fields, coerce any
*non-numeric or missing* field to 0 — a numeric field keeps its mathematical
value, with no range restriction. -/
def claimTriple (v : Chars) : Nat × Nat × Nat :=
  let field := fun (s : Chars) =>
    if s ≠ [] ∧ s.all Char.isDigit = true then digitsVal s else 0
  let parts := ((splitOnDelims v).take 3).map field
  (parts.headD 0, (parts.drop 1).headD 0, (parts.drop 2).headD 0)

/- ── src/updater.rs : patch_workflow_sed ─────────────────────────────── -/

/-- The literal part of the regex `(\|{dep_name} = ")` built by
`patch_workflow_sed` (with `regex::escape(dep_name)`, so `dep_name` is
matched literally): a pipe, the package name, a space, `=`, a space and a
double quote. -/
def sedPat (p : Chars) : Chars := '|' :: p ++ [' ', '=', ' ', '"']

/-- Strip a literal leading pattern: `dropPre a l = some r` iff `l = a ++ r`. -/
def dropPre : Chars → Chars → Option Chars
  | [], l => some l
  | _ :: _, [] => none
  | a :: as, b :: bs => if a = b then dropPre as bs else none

/-- One attempt of the regex `(\|{dep_name} = ")([\d][^"]*)(")` at the head of
`l`: the literal prefix, then a digit, then a maximal run of non-quote
characters, then a closing quote.  On success returns the captured version
(group 2) and the input remaining after the closing quote.  (`\d` is modeled
as an ASCII digit.) -/
def tryMatch (p : Chars) (l : Chars) : Option (Chars × Chars) :=
  match dropPre (sedPat p) l with
  | none => none
  | some [] => none
  | some (d :: t) =>
    if d.isDigit then
      if t.dropWhile (fun x => x ≠ '"') = [] then none
      else some (d :: t.takeWhile (fun x => x ≠ '"'), (t.dropWhile (fun x => x ≠ '"')).tail)
    else none

theorem dropPre_iff (a : Chars) : ∀ l r, dropPre a l = some r ↔ l = a ++ r := by
  induction a with
  | nil => intro l r; simp [dropPre]
  | cons x xs ih =>
    intro l r
    cases l with
    | nil => simp [dropPre]
    | cons b bs =>
      by_cases h : x = b
      · subst h; simp [dropPre, ih]
      · simp only [dropPre, if_neg h, List.cons_append]
        constructor
        · intro hc; exact absurd hc (by simp)
        · intro hc
          injection hc with h1 h2
          exact absurd h1.symm h

theorem dropPre_append (a r : Chars) : dropPre a (a ++ r) = some r :=
  (dropPre_iff a (a ++ r) r).mpr rfl

/-- `tryMatch` success decomposes the input: the literal pattern, the captured
version (digit-led, quote-free) and the closing quote. -/
theorem tryMatch_some {p l ver rest} (h : tryMatch p l = some (ver, rest)) :
    l = sedPat p ++ ver ++ '"' :: rest ∧
      (∃ d t, ver = d :: t ∧ d.isDigit = true) ∧ (∀ x ∈ ver, x ≠ '"') := by
  unfold tryMatch at h
  cases hd : dropPre (sedPat p) l with
  | none => rw [hd] at h; exact absurd h (by simp)
  | some r =>
    rw [hd] at h
    cases r with
    | nil => exact absurd h (by simp)
    | cons d t =>
      by_cases hdig : d.isDigit = true
      · simp only [hdig, if_true] at h
        by_cases hnil : t.dropWhile (fun x => x ≠ '"') = []
        · rw [if_pos hnil] at h; exact absurd h (by simp)
        · rw [if_neg hnil] at h
          simp only [Option.some.injEq, Prod.mk.injEq] at h
          obtain ⟨hver, hrest⟩ := h
          have hq : (t.dropWhile (fun x => x ≠ '"')).head hnil = '"' := by
            have := List.head_dropWhile_not (p := fun x => x ≠ '"') t hnil
            simpa using this
          have hdw : t.dropWhile (fun x => x ≠ '"') =
              '"' :: (t.dropWhile (fun x => x ≠ '"')).tail := by
            conv_lhs => rw [← List.head_cons_tail _ hnil]
            rw [hq]
          have ht : t = t.takeWhile (fun x => x ≠ '"') ++
              '"' :: (t.dropWhile (fun x => x ≠ '"')).tail := by
            calc t = t.takeWhile (fun x => x ≠ '"') ++ t.dropWhile (fun x => x ≠ '"') :=
                  (List.takeWhile_append_dropWhile _ _).symm
              _ = t.takeWhile (fun x => x ≠ '"') ++
                  '"' :: (t.dropWhile (fun x => x ≠ '"')).tail :=
                  congrArg (fun z => t.takeWhile (fun x => x ≠ '"') ++ z) hdw
          have hl : l = sedPat p ++ d :: t := (dropPre_iff _ _ _).mp hd
          refine ⟨?_, ⟨d, t.takeWhile (fun x => x ≠ '"'), hver.symm, hdig⟩, ?_⟩
          · calc l = sedPat p ++ d :: t := hl
              _ = sedPat p ++ d :: (t.takeWhile (fun x => x ≠ '"') ++
                  '"' :: (t.dropWhile (fun x => x ≠ '"')).tail) := by rw [← ht]
              _ = sedPat p ++ (d :: t.takeWhile (fun x => x ≠ '"')) ++
                  '"' :: (t.dropWhile (fun x => x ≠ '"')).tail := by simp
              _ = sedPat p ++ ver ++ '"' :: rest := by rw [hver, hrest]
          · intro x hx
            rw [← hver] at hx
            rcases List.mem_cons.mp hx with h1 | h2
            · subst h1
              intro hcontra
              rw [hcontra] at hdig
              exact absurd hdig (by decide)
            · have := List.mem_takeWhile_imp h2
              simpa using this
      · simp [hdig] at h

theorem tryMatch_rest_lt {p l ver rest} (h : tryMatch p l = some (ver, rest)) :
    rest.length < l.length := by
  obtain ⟨hl, _, _⟩ := tryMatch_some h
  subst hl
  simp [sedPat]
  omega

/-- `patch_workflow_sed` from src/updater.rs: `Regex::replace_all` with pattern
`(\|{dep_name} = ")([\d][^"]*)(")` and replacement `caps[1] ++ new_version ++
caps[3]`, i.e. a leftmost, non-overlapping scan that rewrites each match to
the literal prefix, the new version and the closing quote, and copies every
other character unchanged.  Argument order follows the source:
content, dep_name, new_version. -/
def patch_workflow_sed : Chars → Chars → Chars → Chars
  | [], _, _ => []
  | c :: cs, p, v =>
    match _h : tryMatch p (c :: cs) with
    | some (_, rest) => sedPat p ++ v ++ '"' :: patch_workflow_sed rest p v
    | none => c :: patch_workflow_sed cs p v
termination_by l _ _ => l.length
decreasing_by
  · exact tryMatch_rest_lt _h
  · simp

theorem pws_nil (p v : Chars) : patch_workflow_sed [] p v = [] := by
  simp [patch_workflow_sed]

theorem pws_some {c cs p v ver rest} (h : tryMatch p (c :: cs) = some (ver, rest)) :
    patch_workflow_sed (c :: cs) p v =
      sedPat p ++ v ++ '"' :: patch_workflow_sed rest p v := by
  rw [patch_workflow_sed]
  split
  · rename_i ver' rest' h'
    rw [h] at h'
    cases h'
    rfl
  · rename_i h'
    rw [h] at h'
    cases h'

theorem pws_none {c cs p v} (h : tryMatch p (c :: cs) = none) :
    patch_workflow_sed (c :: cs) p v = c :: patch_workflow_sed cs p v := by
  rw [patch_workflow_sed]
  split
  · rename_i ver' rest' h'
    rw [h] at h'
    cases h'
  · rfl

/-- One segment of the leftmost-scan decomposition of a workflow file: either a
single character that is not part of any match, or the captured version of one
match of the sed pattern. -/
inductive Seg where
  | plainC (c : Char)
  | occ (ver : Chars)
deriving Repr, DecidableEq

/-- The leftmost, non-overlapping match decomposition that `replace_all`
induces on the content (same scan as `patch_workflow_sed`). -/
def sedSplit : Chars → Chars → List Seg
  | [], _ => []
  | c :: cs, p =>
    match _h : tryMatch p (c :: cs) with
    | some (ver, rest) => .occ ver :: sedSplit rest p
    | none => .plainC c :: sedSplit cs p
termination_by l _ => l.length
decreasing_by
  · exact tryMatch_rest_lt _h
  · simp

theorem sedSplit_nil (p : Chars) : sedSplit [] p = [] := by
  simp [sedSplit]

theorem sedSplit_some {c cs p ver rest} (h : tryMatch p (c :: cs) = some (ver, rest)) :
    sedSplit (c :: cs) p = .occ ver :: sedSplit rest p := by
  rw [sedSplit]
  split
  · rename_i ver' rest' h'
    rw [h] at h'
    cases h'
    rfl
  · rename_i h'
    rw [h] at h'
    cases h'

theorem sedSplit_none {c cs p} (h : tryMatch p (c :: cs) = none) :
    sedSplit (c :: cs) p = .plainC c :: sedSplit cs p := by
  rw [sedSplit]
  split
  · rename_i ver' rest' h'
    rw [h] at h'
    cases h'
  · rfl

/-- Source text of a segment. -/
def segOrig (p : Chars) : Seg → Chars
  | .plainC c => [c]
  | .occ ver => sedPat p ++ ver ++ ['"']

/-- Rewritten text of a segment: the version of a match is replaced by
`new_version`, everything else is untouched. -/
def segNew (p v : Chars) : Seg → Chars
  | .plainC c => [c]
  | .occ _ => sedPat p ++ v ++ ['"']

def joinSegs (f : Seg → Chars) : List Seg → Chars
  | [] => []
  | s :: rest => f s ++ joinSegs f rest

/-- Joining the original segments gives back the input, byte for byte. -/
theorem joinSegs_orig (p : Chars) :
    ∀ n (l : Chars), l.length ≤ n → joinSegs (segOrig p) (sedSplit l p) = l := by
  intro n
  induction n with
  | zero =>
    intro l hl
    have : l = [] := by cases l with
      | nil => rfl
      | cons a as => simp at hl
    subst this
    simp [sedSplit_nil, joinSegs]
  | succ n ih =>
    intro l hl
    cases l with
    | nil => simp [sedSplit_nil, joinSegs]
    | cons c cs =>
      cases h : tryMatch p (c :: cs) with
      | some pr =>
        obtain ⟨ver, rest⟩ := pr
        rw [sedSplit_some h]
        have hlt := tryMatch_rest_lt h
        have hdec := (tryMatch_some h).1
        simp only [joinSegs, segOrig]
        rw [ih rest (by simp at hl hlt ⊢; omega)]
        rw [hdec]
        simp
      | none =>
        rw [sedSplit_none h]
        simp only [joinSegs, segOrig]
        rw [ih cs (by simp at hl; omega)]
        simp

/-- `patch_workflow_sed` equals joining the rewritten segments. -/
theorem pws_eq_joinSegs (p v : Chars) :
    ∀ n (l : Chars), l.length ≤ n →
      patch_workflow_sed l p v = joinSegs (segNew p v) (sedSplit l p) := by
  intro n
  induction n with
  | zero =>
    intro l hl
    have : l = [] := by cases l with
      | nil => rfl
      | cons a as => simp at hl
    subst this
    simp [sedSplit_nil, pws_nil, joinSegs]
  | succ n ih =>
    intro l hl
    cases l with
    | nil => simp [sedSplit_nil, pws_nil, joinSegs]
    | cons c cs =>
      cases h : tryMatch p (c :: cs) with
      | some pr =>
        obtain ⟨ver, rest⟩ := pr
        rw [sedSplit_some h, pws_some h]
        have hlt := tryMatch_rest_lt h
        simp only [joinSegs, segNew]
        rw [ih rest (by simp at hl hlt ⊢; omega)]
        simp
      | none =>
        rw [sedSplit_none h, pws_none h]
        simp only [joinSegs, segNew]
        rw [ih cs (by simp at hl; omega)]
        simp

/-- If the pattern occurs nowhere in the content (no suffix matches), the
rewrite returns the input unchanged, byte for byte. -/
theorem pws_no_occ (p v : Chars) :
    ∀ n (l : Chars), l.length ≤ n → (∀ m, tryMatch p (l.drop m) = none) →
      patch_workflow_sed l p v = l := by
  intro n
  induction n with
  | zero =>
    intro l hl _
    have : l = [] := by cases l with
      | nil => rfl
      | cons a as => simp at hl
    subst this
    exact pws_nil p v
  | succ n ih =>
    intro l hl hno
    cases l with
    | nil => exact pws_nil p v
    | cons c cs =>
      have h0 : tryMatch p (c :: cs) = none := hno 0
      rw [pws_none h0]
      rw [ih cs (by simp at hl; omega) (fun m => hno (m + 1))]

/-- A successful match needs at least `|sedPat p| + 2` characters. -/
theorem tryMatch_some_length {p l ver rest} (h : tryMatch p l = some (ver, rest)) :
    (sedPat p).length + 2 ≤ l.length := by
  obtain ⟨hl, ⟨d, t, hdt, _⟩, _⟩ := tryMatch_some h
  subst hl
  subst hdt
  simp
  omega

theorem dropPre_some_eq {a l r : Chars} (h : dropPre a l = some r) :
    r = l.drop a.length := by
  have := (dropPre_iff a l r).mp h
  rw [this]
  simp

theorem dropPre_eq_none_iff (a l : Chars) : dropPre a l = none ↔ l.take a.length ≠ a := by
  constructor
  · intro h hc
    have hl : l = a ++ l.drop a.length := by
      conv_lhs => rw [← List.take_append_drop a.length l]
      rw [hc]
    rw [(dropPre_iff a l (l.drop a.length)).mpr hl] at h
    cases h
  · intro hne
    cases hd : dropPre a l with
    | none => rfl
    | some r =>
      have := (dropPre_iff a l r).mp hd
      rw [this] at hne
      simp at hne

/-- The rewrite never alters the first `|sedPat p|` characters at the front of
the scan (a match replaces at least that many, and the replacement begins with
the same literal pattern). -/
theorem pws_take_agree (p v : Chars) :
    ∀ n (l : Chars), l.length ≤ n → ∀ k, k ≤ (sedPat p).length →
      (patch_workflow_sed l p v).take k = l.take k := by
  intro n
  induction n with
  | zero =>
    intro l hl k _
    have : l = [] := by cases l with
      | nil => rfl
      | cons a as => simp at hl
    subst this
    rw [pws_nil]
  | succ n ih =>
    intro l hl k hk
    cases l with
    | nil => rw [pws_nil]
    | cons c cs =>
      cases h : tryMatch p (c :: cs) with
      | some pr =>
        obtain ⟨ver, rest⟩ := pr
        rw [pws_some h]
        have hdec := (tryMatch_some h).1
        rw [hdec]
        rw [show sedPat p ++ ver ++ '"' :: rest = sedPat p ++ (ver ++ '"' :: rest) by simp]
        rw [show sedPat p ++ v ++ '"' :: patch_workflow_sed rest p v =
          sedPat p ++ (v ++ '"' :: patch_workflow_sed rest p v) by simp]
        rw [List.take_append_of_le_length hk, List.take_append_of_le_length hk]
      | none =>
        rw [pws_none h]
        cases k with
        | zero => simp
        | succ j =>
          simp only [List.take_succ_cons]
          rw [ih cs (by simp at hl; omega) j (by omega)]


theorem head?_drop_eq_get? (l : Chars) (n : Nat) : (l.drop n).head? = l.get? n := by
  induction l generalizing n with
  | nil => simp
  | cons a as ih =>
    cases n with
    | zero => simp
    | succ m => simpa using ih m

/-- A failed match attempt at the head stays failed after the tail has been
rewritten: the attempt inspects only text the rewrite provably preserves. -/
theorem tryMatch_none_stable {p v : Chars} {c : Char} {cs : Chars}
    (h : tryMatch p (c :: cs) = none) :
    tryMatch p (c :: patch_workflow_sed cs p v) = none := by
  have htake : ∀ k, k ≤ (sedPat p).length →
      (c :: patch_workflow_sed cs p v).take (k + 1) = (c :: cs).take (k + 1) := by
    intro k hk
    simp only [List.take_succ_cons]
    rw [pws_take_agree p v cs.length cs le_rfl k hk]
  cases hd : dropPre (sedPat p) (c :: cs) with
  | none =>
    have hne := (dropPre_eq_none_iff _ _).mp hd
    have hd2 : dropPre (sedPat p) (c :: patch_workflow_sed cs p v) = none := by
      rw [dropPre_eq_none_iff]
      intro hc
      apply hne
      calc (c :: cs).take (sedPat p).length
          = ((c :: cs).take ((sedPat p).length + 1)).take (sedPat p).length := by
            rw [List.take_take]; congr 1; omega
        _ = ((c :: patch_workflow_sed cs p v).take ((sedPat p).length + 1)).take
              (sedPat p).length := by rw [htake _ le_rfl]
        _ = (c :: patch_workflow_sed cs p v).take (sedPat p).length := by
            rw [List.take_take]; congr 1; omega
        _ = sedPat p := hc
    unfold tryMatch
    rw [hd2]
  | some r =>
    have hr : r = (c :: cs).drop (sedPat p).length := dropPre_some_eq hd
    have hpre : (c :: cs).take (sedPat p).length = sedPat p := by
      have := (dropPre_iff _ _ _).mp hd
      rw [this]
      exact List.take_left _ _
    have hpre2 : (c :: patch_workflow_sed cs p v).take (sedPat p).length = sedPat p := by
      calc (c :: patch_workflow_sed cs p v).take (sedPat p).length
          = ((c :: patch_workflow_sed cs p v).take ((sedPat p).length + 1)).take
              (sedPat p).length := by rw [List.take_take]; congr 1; omega
        _ = ((c :: cs).take ((sedPat p).length + 1)).take (sedPat p).length := by
            rw [htake _ le_rfl]
        _ = (c :: cs).take (sedPat p).length := by rw [List.take_take]; congr 1; omega
        _ = sedPat p := hpre
    have hd2 : dropPre (sedPat p) (c :: patch_workflow_sed cs p v) =
        some ((c :: patch_workflow_sed cs p v).drop (sedPat p).length) := by
      apply (dropPre_iff _ _ _).mpr
      conv_lhs => rw [← List.take_append_drop (sedPat p).length
        (c :: patch_workflow_sed cs p v)]
      rw [hpre2]
    cases r with
    | nil =>
      -- the whole input is exactly the pattern: too short for any match in cs
      have hlen : cs.length + 1 ≤ (sedPat p).length := by
        have h0 := congrArg List.length hr
        simp at h0
        omega
      have hnone : ∀ m, tryMatch p (cs.drop m) = none := by
        intro m
        cases hm : tryMatch p (cs.drop m) with
        | none => rfl
        | some pr =>
          obtain ⟨ver1, rest1⟩ := pr
          have hlen2 := tryMatch_some_length hm
          have hle : (cs.drop m).length = cs.length - m := by simp
          omega
      rw [pws_no_occ p v cs.length cs le_rfl hnone]
      exact h
    | cons d t =>
      by_cases hdig : d.isDigit = true
      · by_cases hq : t.dropWhile (fun x => x ≠ '"') = []
        · -- no quote after the digit: cs cannot contain any match either
          have htq : ∀ x ∈ t, x ≠ '"' := by
            intro x hx
            have := List.dropWhile_eq_nil_iff.mp hq x hx
            simpa using this
          have hteq : t = cs.drop (sedPat p).length := by
            have h2 : (d :: t).tail = ((c :: cs).drop (sedPat p).length).tail := by rw [hr]
            simp only [List.tail_cons] at h2
            rw [h2, List.tail_drop]
            cases hsp : sedPat p with
            | nil => simp [sedPat] at hsp
            | cons a as => simp [List.drop_succ_cons]
          have hnone : ∀ m, tryMatch p (cs.drop m) = none := by
            intro m
            cases hm : tryMatch p (cs.drop m) with
            | none => rfl
            | some pr =>
              obtain ⟨ver1, rest1⟩ := pr
              obtain ⟨hdec1, _, _⟩ := tryMatch_some hm
              -- the closing quote of that match lies at depth ≥ |sedPat p| in cs
              have hdrop : cs.drop (m + ((sedPat p).length + ver1.length)) =
                  '"' :: rest1 := by
                rw [← List.drop_drop, hdec1]
                rw [show sedPat p ++ ver1 ++ '"' :: rest1 =
                  (sedPat p ++ ver1) ++ '"' :: rest1 by simp]
                rw [List.drop_left' (by simp)]
              have hmem : '"' ∈ cs.drop (sedPat p).length := by
                have hsub : cs.drop (m + ((sedPat p).length + ver1.length)) =
                    (cs.drop (sedPat p).length).drop (m + ver1.length) := by
                  rw [List.drop_drop]
                  congr 1
                  omega
                rw [hsub] at hdrop
                have : '"' ∈ (cs.drop (sedPat p).length).drop (m + ver1.length) := by
                  rw [hdrop]; simp
                exact List.drop_subset _ _ this
              rw [← hteq] at hmem
              exact absurd rfl (htq '"' hmem)
          rw [pws_no_occ p v cs.length cs le_rfl hnone]
          exact h
        · -- pass one would in fact have matched: contradicts the hypothesis
          have hcontra : tryMatch p (c :: cs) ≠ none := by
            unfold tryMatch
            rw [hd]
            simp [hdig, hq]
            by_contra hmem
            apply hq
            rw [List.dropWhile_eq_nil_iff]
            intro x hx
            simp only [ne_eq, decide_eq_true_eq]
            intro hxq
            exact hmem (hxq ▸ hx)
          exact absurd h hcontra
      · -- the character after the pattern is not a digit, in either pass
        have hget1 : (c :: cs).get? (sedPat p).length = some d := by
          have hh : ((c :: cs).drop (sedPat p).length).head? = some d := by
            rw [← hr]
            rfl
          rw [head?_drop_eq_get?] at hh
          exact hh
        have hget2 : (c :: patch_workflow_sed cs p v).get? (sedPat p).length = some d := by
          calc (c :: patch_workflow_sed cs p v).get? (sedPat p).length
              = ((c :: patch_workflow_sed cs p v).take ((sedPat p).length + 1)).get?
                  (sedPat p).length := (List.get?_take (by omega)).symm
            _ = ((c :: cs).take ((sedPat p).length + 1)).get? (sedPat p).length := by
                rw [htake _ le_rfl]
            _ = (c :: cs).get? (sedPat p).length := List.get?_take (by omega)
            _ = some d := hget1
        have hchar : (c :: patch_workflow_sed cs p v).drop (sedPat p).length =
            d :: ((c :: patch_workflow_sed cs p v).drop (sedPat p).length).tail := by
          have hh : ((c :: patch_workflow_sed cs p v).drop (sedPat p).length).head? =
              some d := by
            rw [head?_drop_eq_get?]
            exact hget2
          cases hdd : (c :: patch_workflow_sed cs p v).drop (sedPat p).length with
          | nil => rw [hdd] at hh; cases hh
          | cons x xs =>
            rw [hdd] at hh
            simp at hh
            subst hh
            rfl
        rw [hchar] at hd2
        unfold tryMatch
        rw [hd2]
        simp [hdig]

/-- A match can only begin at a pipe character. -/
theorem tryMatch_head_ne_pipe {p : Chars} {c : Char} {t : Chars} (h : c ≠ '|') :
    tryMatch p (c :: t) = none := by
  unfold tryMatch
  have hdp : dropPre (sedPat p) (c :: t) = none := by
    show dropPre ('|' :: (p ++ [' ', '=', ' ', '"'])) (c :: t) = none
    unfold dropPre
    rw [if_neg (fun hc => h hc.symm)]
  rw [hdp]

/-- The scan walks through any pipe-free block unchanged. -/
theorem pws_no_pipe_block (p v : Chars) :
    ∀ B Y : Chars, (∀ x ∈ B, x ≠ '|') →
      patch_workflow_sed (B ++ Y) p v = B ++ patch_workflow_sed Y p v := by
  intro B
  induction B with
  | nil => intro Y _; simp
  | cons b B' ih =>
    intro Y hB
    have hb : b ≠ '|' := hB b (by simp)
    rw [List.cons_append, pws_none (tryMatch_head_ne_pipe hb),
      ih Y (fun x hx => hB x (by simp [hx]))]
    rfl

theorem pws_some' {l p v ver rest} (h : tryMatch p l = some (ver, rest)) :
    patch_workflow_sed l p v =
      sedPat p ++ v ++ '"' :: patch_workflow_sed rest p v := by
  cases l with
  | nil =>
    exfalso
    have hdp : dropPre (sedPat p) [] = none := by
      show dropPre ('|' :: (p ++ [' ', '=', ' ', '"'])) [] = none
      rfl
    unfold tryMatch at h
    rw [hdp] at h
    cases h
  | cons c cs => exact pws_some h

theorem takeWhile_append_all {P : Char → Bool} :
    ∀ A B : Chars, (∀ x ∈ A, P x = true) → (A ++ B).takeWhile P = A ++ B.takeWhile P := by
  intro A
  induction A with
  | nil => intro B _; simp
  | cons a A' ih =>
    intro B hA
    rw [List.cons_append]
    rw [List.takeWhile_cons_of_pos (hA a (by simp))]
    rw [ih B (fun x hx => hA x (by simp [hx]))]
    rfl

theorem dropWhile_append_all {P : Char → Bool} :
    ∀ A B : Chars, (∀ x ∈ A, P x = true) → (A ++ B).dropWhile P = B.dropWhile P := by
  intro A
  induction A with
  | nil => intro B _; simp
  | cons a A' ih =>
    intro B hA
    rw [List.cons_append]
    rw [List.dropWhile_cons_of_pos (hA a (by simp))]
    exact ih B (fun x hx => hA x (by simp [hx]))


/-- Rewriting the text produced for one match either reproduces it exactly
(when the new version itself still matches) or leaves it unchanged (when it
does not), provided the package name has no pipe and the new version has no
pipe and no quote. -/
theorem pws_rematch (p v : Chars) (hp : '|' ∉ p) (hvp : '|' ∉ v) (hvq : '"' ∉ v)
    (Y : Chars) :
    patch_workflow_sed (sedPat p ++ v ++ '"' :: Y) p v =
      sedPat p ++ v ++ '"' :: patch_workflow_sed Y p v := by
  cases v with
  | nil =>
    -- empty new version: right after the pattern comes a quote, not a digit
    have hnom : tryMatch p (sedPat p ++ [] ++ '"' :: Y) = none := by
      unfold tryMatch
      rw [show sedPat p ++ [] ++ '"' :: Y = sedPat p ++ ('"' :: Y) by simp]
      rw [dropPre_append]
      simp
    have hB : ∀ x ∈ p ++ [' ', '=', ' ', '"'] ++ ['"'], x ≠ '|' := by
      intro x hx hc
      subst hc
      rcases List.mem_append.mp hx with h1 | h2
      · rcases List.mem_append.mp h1 with h3 | h4
        · exact hp h3
        · exact absurd h4 (by decide)
      · exact absurd h2 (by decide)
    have harr : sedPat p ++ [] ++ '"' :: Y =
        '|' :: ((p ++ [' ', '=', ' ', '"'] ++ ['"']) ++ Y) := by
      simp [sedPat]
    rw [harr] at hnom ⊢
    rw [pws_none hnom]
    rw [pws_no_pipe_block p [] _ Y hB]
    simp [sedPat]
  | cons d v' =>
    by_cases hd : d.isDigit = true
    · -- the rewritten block matches again, capturing exactly the new version
      have hv'q : ∀ x ∈ v', x ≠ '"' := by
        intro x hx hc
        exact hvq (List.mem_cons_of_mem d (hc ▸ hx))
      have hm : tryMatch p (sedPat p ++ (d :: v') ++ '"' :: Y) = some (d :: v', Y) := by
        unfold tryMatch
        rw [show sedPat p ++ (d :: v') ++ '"' :: Y =
          sedPat p ++ (d :: (v' ++ '"' :: Y)) by simp]
        rw [dropPre_append]
        simp only [hd, if_true]
        rw [dropWhile_append_all v' ('"' :: Y) (fun x hx => by
          simp only [decide_eq_true_eq]
          exact hv'q x hx)]
        rw [takeWhile_append_all v' ('"' :: Y) (fun x hx => by
          simp only [decide_eq_true_eq]
          exact hv'q x hx)]
        simp
      rw [pws_some' hm]
    · -- the new version does not begin with a digit: no rematch in this block
      have hnom : tryMatch p (sedPat p ++ (d :: v') ++ '"' :: Y) = none := by
        unfold tryMatch
        rw [show sedPat p ++ (d :: v') ++ '"' :: Y =
          sedPat p ++ (d :: (v' ++ '"' :: Y)) by simp]
        rw [dropPre_append]
        simp [hd]
      have hB : ∀ x ∈ p ++ [' ', '=', ' ', '"'] ++ (d :: v') ++ ['"'], x ≠ '|' := by
        intro x hx hc
        subst hc
        rcases List.mem_append.mp hx with h1 | h2
        · rcases List.mem_append.mp h1 with h3 | h4
          · rcases List.mem_append.mp h3 with h5 | h6
            · exact hp h5
            · exact absurd h6 (by decide)
          · exact hvp h4
        · exact absurd h2 (by decide)
      have harr : sedPat p ++ (d :: v') ++ '"' :: Y =
          '|' :: ((p ++ [' ', '=', ' ', '"'] ++ (d :: v') ++ ['"']) ++ Y) := by
        simp [sedPat]
      rw [harr] at hnom ⊢
      rw [pws_none hnom]
      rw [pws_no_pipe_block p (d :: v') _ Y hB]
      simp [sedPat]

/-- Idempotence of the workflow rewrite, for pipe-free package names and
pipe-free, quote-free new versions. -/
theorem pws_idem_aux (p v : Chars) (hp : '|' ∉ p) (hvp : '|' ∉ v) (hvq : '"' ∉ v) :
    ∀ n (l : Chars), l.length ≤ n →
      patch_workflow_sed (patch_workflow_sed l p v) p v =
        patch_workflow_sed l p v := by
  intro n
  induction n with
  | zero =>
    intro l hl
    have : l = [] := by cases l with
      | nil => rfl
      | cons a as => simp at hl
    subst this
    rw [pws_nil, pws_nil]
  | succ n ih =>
    intro l hl
    cases l with
    | nil => rw [pws_nil, pws_nil]
    | cons c cs =>
      cases h : tryMatch p (c :: cs) with
      | some pr =>
        obtain ⟨ver, rest⟩ := pr
        rw [pws_some h]
        rw [pws_rematch p v hp hvp hvq]
        have hlt := tryMatch_rest_lt h
        rw [ih rest (by simp at hl hlt; omega)]
      | none =>
        rw [pws_none h]
        rw [pws_none (tryMatch_none_stable h)]
        rw [ih cs (by simp at hl; omega)]

/- ── src/git.rs ──────────────────────────────────────────────────────── -/

/-- Outcome of spawning one subprocess (`std::process::Command`): either the
spawn itself fails, or the process completes with an exit status (`exitOk` is
`status.success()`) and captured stdout/stderr. -/
inductive SpawnResult where
  | failed
  | completed (exitOk : Bool) (stdout stderr : Chars)
deriving Repr, DecidableEq

/-- The two `gh api` invocations `commit_via_gh_cli` performs, as oracles:
the GET of the current blob sha, and the PUT of the new content.  The PUT
outcome may depend on the blob sha the GET produced (the sha is passed as a
`--field` of the PUT request). -/
structure GhEnv where
  getOut : SpawnResult
  putOut : Chars → SpawnResult

/-- The filesystem and subprocess outcomes seen by `commit_via_local_git`:
`create_dir_all`, `fs::write`, the three `run_git` steps (`none` = spawn
failure, `some b` = completed with `status.success() = b`), and the final
`git rev-parse --short HEAD` invocation. -/
structure LocalEnv where
  createDirsOk : Bool
  writeOk : Bool
  addRun : Option Bool
  commitRun : Option Bool
  pushRun : Option Bool
  revParse : SpawnResult

/-- Rust `str::trim`: strip whitespace from both ends. -/
def trimChars (s : Chars) : Chars :=
  ((s.dropWhile Char.isWhitespace).reverse.dropWhile Char.isWhitespace).reverse

/-- Rust `str::trim_matches('"')`: strip double quotes from both ends. -/
def trimQuotes (s : Chars) : Chars :=
  ((s.dropWhile (fun c => c = '"')).reverse.dropWhile (fun c => c = '"')).reverse

inductive GhErr where
  | spawnGet      -- "gh CLI not found or failed to run"
  | getNonzero    -- "gh api GET failed"
  | spawnPut      -- "gh api PUT failed" (spawn error of the PUT)
  | putNonzero    -- "gh api PUT returned non-zero"
deriving Repr, DecidableEq

/-- `commit_via_gh_cli` from src/git.rs: fetch the current blob sha with
`gh api repos/{repo}/contents/{path} --jq .sha`, then PUT the base64-encoded
content with that sha; returns the trimmed, quote-stripped `.commit.sha` of
the PUT output.  `repo`, `file_path`, `content` and `message` only feed the
request; the outcome of each round-trip is the oracle in `env`. -/
def commit_via_gh_cli (env : GhEnv) (repo file_path content message : Chars) :
    Except GhErr Chars :=
  match env.getOut with
  | .failed => .error .spawnGet
  | .completed ok out _ =>
    if ok = false then .error .getNonzero
    else
      let blob_sha := trimQuotes (trimChars out)
      match env.putOut blob_sha with
      | .failed => .error .spawnPut
      | .completed ok2 out2 _ =>
        if ok2 = false then .error .putNonzero
        else .ok (trimQuotes (trimChars out2))

inductive RunErr where
  | spawn     -- failed to spawn git
  | nonzero   -- the git subcommand exited with a non-zero status
deriving Repr, DecidableEq

/-- `run_git` from src/git.rs: runs a git subcommand, `Err` if the spawn fails
or the command exits non-zero. -/
def run_git (result : Option Bool) : Except RunErr Unit :=
  match result with
  | none => .error .spawn
  | some true => .ok ()
  | some false => .error .nonzero

inductive LocalErr where
  | createDirs
  | writeFile
  | addFailed (e : RunErr)
  | commitFailed (e : RunErr)
  | pushFailed (e : RunErr)
  | revParseSpawn
deriving Repr, DecidableEq

/-- `commit_via_local_git` from src/git.rs: create parent dirs, write the
file, then `git add`, `git commit -m`, `git push` via `run_git`, and finally
`git rev-parse --short HEAD` via `Command::output`.  Note: the code checks
only that rev-parse *spawned*; its exit status and stderr are ignored, and
the returned sha is the trimmed stdout, whatever it is. -/
def commit_via_local_git (env : LocalEnv) : Except LocalErr Chars :=
  if env.createDirsOk = false then .error .createDirs
  else if env.writeOk = false then .error .writeFile
  else
    match run_git env.addRun with
    | .error e => .error (.addFailed e)
    | .ok _ =>
      match run_git env.commitRun with
      | .error e => .error (.commitFailed e)
      | .ok _ =>
        match run_git env.pushRun with
        | .error e => .error (.pushFailed e)
        | .ok _ =>
          match env.revParse with
          | .failed => .error .revParseSpawn
          | .completed _ out _ => .ok (trimChars out)

/-- `CommitStrategy` from src/git.rs. -/
inductive CommitStrategy where
  | GhCli
  | LocalGit
deriving Repr, DecidableEq

/-- `CommitResult` from src/git.rs. -/
structure CommitResult where
  repo : Chars
  file_path : Chars
  strategy : CommitStrategy
  sha : Chars
deriving Repr, DecidableEq

/-- The two failure contexts `commit_file` can report: the gh CLI failed and
no `local_base` was provided, or the local git fallback itself failed. -/
inductive CommitErr where
  | noFallbackAvailable
  | localCommitFailed
deriving Repr, DecidableEq

/-- Which attempts `commit_file` actually starts, in order. -/
inductive AttemptTag where
  | remoteApi
  | localCheckout
deriving Repr, DecidableEq

/-- `commit_file` from src/git.rs, instrumented with the list of attempts it
starts: try `commit_via_gh_cli`; on success return a `CommitResult` with
strategy `GhCli` (the local attempt is never started); on failure, fail with
`noFallbackAvailable` if no `local_base` was supplied, otherwise run
`commit_via_local_git` once, mapping its success to strategy `LocalGit` and
its failure to `localCommitFailed`. -/
def commit_file (org repo file_path content message : Chars) (ghEnv : GhEnv)
    (localEnv : LocalEnv) (local_base : Option Chars) :
    Except CommitErr CommitResult × List AttemptTag :=
  let slug := org ++ '/' :: repo
  match commit_via_gh_cli ghEnv slug file_path content message with
  | .ok sha => (.ok ⟨slug, file_path, .GhCli, sha⟩, [.remoteApi])
  | .error _ =>
    match local_base with
    | none => (.error .noFallbackAvailable, [.remoteApi])
    | some _ =>
      match commit_via_local_git localEnv with
      | .ok sha => (.ok ⟨slug, file_path, .LocalGit, sha⟩, [.remoteApi, .localCheckout])
      | .error _ => (.error .localCommitFailed, [.remoteApi, .localCheckout])

/-- Whether an `Except` is a success. -/
def isOkE {ε α : Type} : Except ε α → Bool
  | .ok _ => true
  | .error _ => false

/- ── TOML document model (toml_edit) ─────────────────────────────────── -/

/- `patch_cargo_toml` and `current_dep_version` operate on a
`toml_edit::DocumentMut`, a parsed TOML tree whose nodes carry their
surrounding whitespace/comments ("decor") so that `doc.to_string()`
reproduces the input byte for byte.  We embed the tree post-parse:
a document is a list of (key, item) pairs, an item is either a value or a
standard table with a `[header]`, and values are quoted strings, other
scalars (ints, bools, arrays, …, kept as raw text) or inline tables.
Keys and values carry their decor as prefix/suffix strings; `renderDoc` is
`doc.to_string()`.  Scope restrictions of the embedding: string literals are
kept unescaped (faithful for text without escapes), inline tables hold only
scalar entries and standard tables nest only one level (`[dependencies.p]`),
which covers every dependency-entry shape the source distinguishes. -/

structure TKey where
  pre : Chars
  name : Chars
  suf : Chars
deriving Repr, DecidableEq

inductive Scalar where
  | sstr (pre lit suf : Chars)
  | sother (pre raw suf : Chars)
deriving Repr, DecidableEq

inductive TValue where
  | scal (s : Scalar)
  | vinline (pre : Chars) (entries : List (TKey × Scalar)) (suf : Chars)
deriving Repr, DecidableEq

structure SubTable where
  pre : Chars
  inner : Chars
  suf : Chars
  kvs : List (TKey × TValue)
deriving Repr, DecidableEq

inductive Item where
  | itemV (v : TValue)
  | itemTable (pre inner suf : Chars) (kvs : List (TKey × TValue))
      (subs : List (TKey × SubTable))
deriving Repr, DecidableEq

abbrev Doc := List (TKey × Item)

def renderScalar : Scalar → Chars
  | .sstr pre lit suf => pre ++ '"' :: lit ++ '"' :: suf
  | .sother pre raw suf => pre ++ raw ++ suf

def renderInlineEntries : List (TKey × Scalar) → Chars
  | [] => []
  | [(k, s)] => k.pre ++ k.name ++ k.suf ++ '=' :: renderScalar s
  | (k, s) :: rest =>
    k.pre ++ k.name ++ k.suf ++ '=' :: renderScalar s ++ ',' :: renderInlineEntries rest

def renderTValue : TValue → Chars
  | .scal s => renderScalar s
  | .vinline pre es suf => pre ++ '{' :: renderInlineEntries es ++ '}' :: suf

def renderKV (k : TKey) (v : TValue) : Chars :=
  k.pre ++ k.name ++ k.suf ++ '=' :: renderTValue v ++ ['\n']

def renderKVs : List (TKey × TValue) → Chars
  | [] => []
  | (k, v) :: rest => renderKV k v ++ renderKVs rest

def renderSub (st : SubTable) : Chars :=
  st.pre ++ '[' :: st.inner ++ ']' :: st.suf ++ '\n' :: renderKVs st.kvs

def renderSubs : List (TKey × SubTable) → Chars
  | [] => []
  | (_, st) :: rest => renderSub st ++ renderSubs rest

def renderItem (k : TKey) : Item → Chars
  | .itemV v => renderKV k v
  | .itemTable pre inner suf kvs subs =>
    pre ++ '[' :: inner ++ ']' :: suf ++ '\n' :: (renderKVs kvs ++ renderSubs subs)

/-- `doc.to_string()`. -/
def renderDoc : Doc → Chars
  | [] => []
  | (k, it) :: rest => renderItem k it ++ renderDoc rest

/-- First entry with the given key name (`Table::get`). -/
def lookupKVs {α : Type} : List (TKey × α) → Chars → Option α
  | [], _ => none
  | (k, x) :: rest, n => if k.name = n then some x else lookupKVs rest n

def depsKey : Chars := "dependencies".toList

def versionKey : Chars := "version".toList

def pathKey : Chars := "path".toList

/-- What `deps.get(dep_name)` yields: a value entry (bare string, scalar or
inline table, also when `deps` itself is an inline table) or a block
sub-table `[dependencies.dep]`. -/
inductive DepEntry where
  | asValue (v : TValue)
  | asSub (st : SubTable)
deriving Repr, DecidableEq

/-- `deps.get(dep_name)` / `deps.get_mut(dep_name)`: on a standard table,
look among its key-values first, then its sub-tables; on an inline-table
value, look among its entries; on any other value there is no such method
result (`None`). -/
def getDep (it : Item) (dep : Chars) : Option DepEntry :=
  match it with
  | .itemV (.scal _) => none
  | .itemV (.vinline _ es _) => (lookupKVs es dep).map (fun s => .asValue (.scal s))
  | .itemTable _ _ _ kvs subs =>
    match lookupKVs kvs dep with
    | some v => some (.asValue v)
    | none => (lookupKVs subs dep).map .asSub

/-- `doc.get("dependencies")` followed by `deps.get(dep_name)`. -/
def getDepFromDoc (doc : Doc) (dep : Chars) : Option DepEntry :=
  (lookupKVs doc depsKey).bind (fun it => getDep it dep)

/-- `Value::as_str` / `Item::as_str` on a scalar. -/
def scalarAsStr : Scalar → Option Chars
  | .sstr _ lit _ => some lit
  | .sother _ _ _ => none

/-- `Item::as_str` on a value. -/
def tvalueAsStr : TValue → Option Chars
  | .scal s => scalarAsStr s
  | .vinline _ _ _ => none

/-- `current_dep_version` from src/versions.rs: find the dependency entry;
a bare string yields its literal; an inline table or block table yields
`None` when it has a `path` key, otherwise its `version` field's string
value (or `None` when absent or not a string). -/
def current_dep_version (doc : Doc) (dep : Chars) : Option Chars :=
  match getDepFromDoc doc dep with
  | none => none
  | some (.asValue (.scal s)) => scalarAsStr s
  | some (.asValue (.vinline _ es _)) =>
    if (lookupKVs es pathKey).isSome then none
    else
      match lookupKVs es versionKey with
      | some s => scalarAsStr s
      | none => none
  | some (.asSub st) =>
    if (lookupKVs st.kvs pathKey).isSome then none
    else
      match lookupKVs st.kvs versionKey with
      | some v => tvalueAsStr v
      | none => none

inductive PErr where
  | noDepsTable   -- "no [dependencies] section found"
  | depNotFound   -- "dependency not found in [dependencies]"
  | shape         -- "unexpected TOML shape for dependency"
deriving Repr, DecidableEq

/-- `toml_edit::value(v2)` / `Value::from(v2)`: a fresh quoted string with
*default* decor — one space before, nothing after.  Assigning it over an
existing entry discards that entry's own decor (spacing and any trailing
comment attached to the old value). -/
def defaultStr (v2 : Chars) : Scalar := .sstr [' '] v2 []

/-- Inline-table branch of `patch_cargo_toml`: replace the value of the
`version` key, if present, by `Value::from(new_version)`; no key: no edit. -/
def setVersionScalars : List (TKey × Scalar) → Chars → List (TKey × Scalar)
  | [], _ => []
  | (k, s) :: rest, v2 =>
    if k.name = versionKey then (k, defaultStr v2) :: rest
    else (k, s) :: setVersionScalars rest v2

/-- Block-table branch of `patch_cargo_toml`: replace the `version` item, if
present, by `toml_edit::value(new_version)`; no key: no edit. -/
def setVersionKVs : List (TKey × TValue) → Chars → List (TKey × TValue)
  | [], _ => []
  | (k, v) :: rest, v2 =>
    if k.name = versionKey then (k, .scal (defaultStr v2)) :: rest
    else (k, v) :: setVersionKVs rest v2

/-- The per-entry patch of `patch_cargo_toml`: a bare string is replaced
outright; an inline table gets its `version` field replaced; any other value
shape is the `ShapeError` bail. -/
def patchDepTValue (v : TValue) (v2 : Chars) : Except PErr TValue :=
  match v with
  | .scal (.sstr _ _ _) => .ok (.scal (defaultStr v2))
  | .scal (.sother _ _ _) => .error .shape
  | .vinline pre es suf => .ok (.vinline pre (setVersionScalars es v2) suf)

/-- Patch the dependency inside an inline `dependencies = { … }` table. -/
def patchScalarEntries :
    List (TKey × Scalar) → Chars → Chars → Except PErr (List (TKey × Scalar))
  | [], _, _ => .error .depNotFound
  | (k, s) :: rest, dep, v2 =>
    if k.name = dep then
      match s with
      | .sstr _ _ _ => .ok ((k, defaultStr v2) :: rest)
      | .sother _ _ _ => .error .shape
    else (patchScalarEntries rest dep v2).map (fun r => (k, s) :: r)

/-- Patch the dependency among the key-values of a `[dependencies]` table;
`none` when the key is absent there. -/
def patchKVs :
    List (TKey × TValue) → Chars → Chars → Option (Except PErr (List (TKey × TValue)))
  | [], _, _ => none
  | (k, v) :: rest, dep, v2 =>
    if k.name = dep then some ((patchDepTValue v v2).map (fun v3 => (k, v3) :: rest))
    else (patchKVs rest dep v2).map (fun r => r.map (fun r2 => (k, v) :: r2))

/-- Patch the dependency among the `[dependencies.p]` sub-tables; `none` when
absent.  This branch never fails: a present `version` item is replaced, an
absent one leaves the table untouched. -/
def patchSubs :
    List (TKey × SubTable) → Chars → Chars → Option (List (TKey × SubTable))
  | [], _, _ => none
  | (k, st) :: rest, dep, v2 =>
    if k.name = dep then some ((k, { st with kvs := setVersionKVs st.kvs v2 }) :: rest)
    else (patchSubs rest dep v2).map (fun r => (k, st) :: r)

/-- Patch the dependency inside the located `dependencies` item. -/
def patchDepItem (it : Item) (dep v2 : Chars) : Except PErr Item :=
  match it with
  | .itemV (.scal _) => .error .depNotFound
  | .itemV (.vinline pre es suf) =>
    (patchScalarEntries es dep v2).map (fun es2 => Item.itemV (.vinline pre es2 suf))
  | .itemTable pre inner suf kvs subs =>
    match patchKVs kvs dep v2 with
    | some r => r.map (fun kvs2 => Item.itemTable pre inner suf kvs2 subs)
    | none =>
      match patchSubs subs dep v2 with
      | some subs2 => .ok (.itemTable pre inner suf kvs subs2)
      | none => .error .depNotFound

/-- `patch_cargo_toml` from src/updater.rs, post-parse: locate the
`dependencies` entry (`NotFound` when absent), locate the dependency within
it (`NotFound` when absent), then rewrite its version per shape
(`ShapeError` when the entry is neither a bare string nor a table).
The serialized result of the source function is `renderDoc` of this one. -/
def patch_cargo_toml : Doc → Chars → Chars → Except PErr Doc
  | [], _, _ => .error .noDepsTable
  | (k, it) :: rest, dep, v2 =>
    if k.name = depsKey then (patchDepItem it dep v2).map (fun it2 => (k, it2) :: rest)
    else (patch_cargo_toml rest dep v2).map (fun r => (k, it) :: r)

/- ── Agreement between lookup and patch on the TOML model ────────────── -/

/-- Replace the first entry with the given key name. -/
def replaceKVs {α : Type} : List (TKey × α) → Chars → α → List (TKey × α)
  | [], _, _ => []
  | (k, x) :: rest, n, y =>
    if k.name = n then (k, y) :: rest else (k, x) :: replaceKVs rest n y

theorem lookup_replaceKVs {α : Type} (l : List (TKey × α)) (n : Chars) (y : α) :
    (lookupKVs l n).isSome = true → lookupKVs (replaceKVs l n y) n = some y := by
  induction l with
  | nil => intro h; simp [lookupKVs] at h
  | cons e rest ih =>
    obtain ⟨k, x⟩ := e
    intro h
    by_cases hk : k.name = n
    · simp [lookupKVs, replaceKVs, hk]
    · simp only [lookupKVs, replaceKVs, if_neg hk] at h ⊢
      exact ih h

theorem lookup_append_fresh {α : Type} (A : List (TKey × α)) (k : TKey) (x : α)
    (B : List (TKey × α)) (n : Chars) (hA : ∀ e ∈ A, e.1.name ≠ n)
    (hk : k.name = n) : lookupKVs (A ++ (k, x) :: B) n = some x := by
  induction A with
  | nil => simp [lookupKVs, hk]
  | cons e rest ih =>
    obtain ⟨k', x'⟩ := e
    have hne : k'.name ≠ n := hA (k', x') (by simp)
    simp only [List.cons_append, lookupKVs, if_neg hne]
    exact ih (fun e he => hA e (by simp [he]))

theorem replace_append_fresh {α : Type} (A : List (TKey × α)) (k : TKey) (x : α)
    (B : List (TKey × α)) (n : Chars) (y : α) (hA : ∀ e ∈ A, e.1.name ≠ n)
    (hk : k.name = n) : replaceKVs (A ++ (k, x) :: B) n y = A ++ (k, y) :: B := by
  induction A with
  | nil => simp [replaceKVs, hk]
  | cons e rest ih =>
    obtain ⟨k', x'⟩ := e
    have hne : k'.name ≠ n := hA (k', x') (by simp)
    simp only [List.cons_append, replaceKVs, if_neg hne, List.cons.injEq, true_and]
    exact ih (fun e he => hA e (by simp [he]))

theorem patchScalarEntries_notFound (es : List (TKey × Scalar)) (dep v2 : Chars)
    (h : lookupKVs es dep = none) :
    patchScalarEntries es dep v2 = .error .depNotFound := by
  induction es with
  | nil => rfl
  | cons e rest ih =>
    obtain ⟨k, s⟩ := e
    by_cases hk : k.name = dep
    · simp [lookupKVs, hk] at h
    · simp only [lookupKVs, if_neg hk] at h
      simp [patchScalarEntries, if_neg hk, ih h, Except.map]

theorem patchScalarEntries_shape (es : List (TKey × Scalar)) (dep v2 : Chars)
    (a b c : Chars) (h : lookupKVs es dep = some (.sother a b c)) :
    patchScalarEntries es dep v2 = .error .shape := by
  induction es with
  | nil => simp [lookupKVs] at h
  | cons e rest ih =>
    obtain ⟨k, s⟩ := e
    by_cases hk : k.name = dep
    · simp only [lookupKVs, if_pos hk, Option.some.injEq] at h
      subst h
      simp [patchScalarEntries, if_pos hk]
    · simp only [lookupKVs, if_neg hk] at h
      simp [patchScalarEntries, if_neg hk, ih h, Except.map]

theorem patchScalarEntries_ok (es : List (TKey × Scalar)) (dep v2 : Chars)
    (a b c : Chars) (h : lookupKVs es dep = some (.sstr a b c)) :
    patchScalarEntries es dep v2 = .ok (replaceKVs es dep (defaultStr v2)) := by
  induction es with
  | nil => simp [lookupKVs] at h
  | cons e rest ih =>
    obtain ⟨k, s⟩ := e
    by_cases hk : k.name = dep
    · simp only [lookupKVs, if_pos hk, Option.some.injEq] at h
      subst h
      simp [patchScalarEntries, replaceKVs, if_pos hk]
    · simp only [lookupKVs, if_neg hk] at h
      simp [patchScalarEntries, replaceKVs, if_neg hk, ih h, Except.map]

theorem patchKVs_notFound (kvs : List (TKey × TValue)) (dep v2 : Chars)
    (h : lookupKVs kvs dep = none) : patchKVs kvs dep v2 = none := by
  induction kvs with
  | nil => rfl
  | cons e rest ih =>
    obtain ⟨k, v⟩ := e
    by_cases hk : k.name = dep
    · simp [lookupKVs, hk] at h
    · simp only [lookupKVs, if_neg hk] at h
      simp [patchKVs, if_neg hk, ih h]

theorem patchKVs_found (kvs : List (TKey × TValue)) (dep v2 : Chars) (v : TValue)
    (h : lookupKVs kvs dep = some v) :
    patchKVs kvs dep v2 =
      some ((patchDepTValue v v2).map (fun v3 => replaceKVs kvs dep v3)) := by
  induction kvs with
  | nil => simp [lookupKVs] at h
  | cons e rest ih =>
    obtain ⟨k, v'⟩ := e
    by_cases hk : k.name = dep
    · simp only [lookupKVs, if_pos hk, Option.some.injEq] at h
      subst h
      simp [patchKVs, if_pos hk, replaceKVs]
    · simp only [lookupKVs, if_neg hk] at h
      simp only [patchKVs, replaceKVs, if_neg hk, ih h]
      cases patchDepTValue v v2 <;> simp [Except.map]

theorem patchSubs_notFound (subs : List (TKey × SubTable)) (dep v2 : Chars)
    (h : lookupKVs subs dep = none) : patchSubs subs dep v2 = none := by
  induction subs with
  | nil => rfl
  | cons e rest ih =>
    obtain ⟨k, st⟩ := e
    by_cases hk : k.name = dep
    · simp [lookupKVs, hk] at h
    · simp only [lookupKVs, if_neg hk] at h
      simp [patchSubs, if_neg hk, ih h]

theorem patchSubs_found (subs : List (TKey × SubTable)) (dep v2 : Chars)
    (st : SubTable) (h : lookupKVs subs dep = some st) :
    patchSubs subs dep v2 =
      some (replaceKVs subs dep { st with kvs := setVersionKVs st.kvs v2 }) := by
  induction subs with
  | nil => simp [lookupKVs] at h
  | cons e rest ih =>
    obtain ⟨k, st'⟩ := e
    by_cases hk : k.name = dep
    · simp only [lookupKVs, if_pos hk, Option.some.injEq] at h
      subst h
      simp [patchSubs, replaceKVs, if_pos hk]
    · simp only [lookupKVs, if_neg hk] at h
      simp [patchSubs, replaceKVs, if_neg hk, ih h]

/-- `patch_cargo_toml` in normal form: when the `dependencies` key is absent
the patch fails with the missing-section error; otherwise it is the per-item
patch of that first entry spliced back into the document. -/
theorem patch_cargo_toml_spec (doc : Doc) (dep v2 : Chars) :
    (lookupKVs doc depsKey = none →
      patch_cargo_toml doc dep v2 = .error .noDepsTable) ∧
    (∀ it, lookupKVs doc depsKey = some it →
      patch_cargo_toml doc dep v2 =
        (patchDepItem it dep v2).map (fun it2 => replaceKVs doc depsKey it2)) := by
  induction doc with
  | nil => exact ⟨fun _ => rfl, fun it h => by simp [lookupKVs] at h⟩
  | cons e rest ih =>
    obtain ⟨k, it'⟩ := e
    by_cases hk : k.name = depsKey
    · constructor
      · intro h
        simp [lookupKVs, hk] at h
      · intro it h
        simp only [lookupKVs, if_pos hk, Option.some.injEq] at h
        subst h
        simp [patch_cargo_toml, if_pos hk, replaceKVs]
    · constructor
      · intro h
        simp only [lookupKVs, if_neg hk] at h
        simp [patch_cargo_toml, if_neg hk, ih.1 h, Except.map]
      · intro it h
        simp only [lookupKVs, if_neg hk] at h
        simp only [patch_cargo_toml, replaceKVs, if_neg hk, ih.2 it h]
        cases patchDepItem it dep v2 <;> simp [Except.map]

/- ── Claim theorems ──────────────────────────────────────────────────── -/

theorem tryMatch_nil (p : Chars) : tryMatch p [] = none := by
  unfold tryMatch
  have hdp : dropPre (sedPat p) [] = none := by
    show dropPre ('|' :: (p ++ [' ', '=', ' ', '"'])) [] = none
    rfl
  rw [hdp]

/-- Every version captured by the decomposition is digit-led and quote-free. -/
theorem sedSplit_occ_props (p : Chars) :
    ∀ n (l : Chars), l.length ≤ n → ∀ ver, Seg.occ ver ∈ sedSplit l p →
      (∃ d t, ver = d :: t ∧ d.isDigit = true) ∧ ∀ x ∈ ver, x ≠ '"' := by
  intro n
  induction n with
  | zero =>
    intro l hl ver hv
    have : l = [] := by cases l with
      | nil => rfl
      | cons a as => simp at hl
    subst this
    rw [sedSplit_nil] at hv
    cases hv
  | succ n ih =>
    intro l hl ver hv
    cases l with
    | nil => rw [sedSplit_nil] at hv; cases hv
    | cons c cs =>
      cases h : tryMatch p (c :: cs) with
      | some pr =>
        obtain ⟨ver1, rest⟩ := pr
        rw [sedSplit_some h] at hv
        rcases List.mem_cons.mp hv with h1 | h2
        · obtain ⟨_, hd, hq⟩ := tryMatch_some h
          cases h1
          exact ⟨hd, hq⟩
        · have hlt := tryMatch_rest_lt h
          exact ih rest (by simp at hl hlt; omega) ver h2
      | none =>
        rw [sedSplit_none h] at hv
        rcases List.mem_cons.mp hv with h1 | h2
        · cases h1
        · exact ih cs (by simp at hl; omega) ver h2

/-- C4 (amended): `needs_update(current, latest)` is true iff the
(major, minor, patch) triple obtained from `latest` strictly exceeds, in
lexicographic order, the triple obtained from `current`, where each triple is
built by splitting on `.`, `-` or `+`, taking the first three fields, and
coercing any non-numeric, missing, or out-of-u64-range (≥ 2^64) field to 0;
in particular the four quoted examples evaluate as stated. -/
theorem c4_needs_update_lex :
    (∀ current latest : Chars,
      needs_update current latest = true ↔
        lexGt (parse_semver latest) (parse_semver current)) ∧
    needs_update "0.2.0".toList "0.3.0".toList = true ∧
    needs_update "0.3.0".toList "0.2.0".toList = false ∧
    needs_update "0.3.0".toList "0.3.0".toList = false ∧
    needs_update "0.2.1".toList "0.2.2".toList = true := by
  refine ⟨?_, by decide, by decide, by decide, by decide⟩
  intro c l
  unfold needs_update tripleGt lexGt
  simp only [Bool.or_eq_true, Bool.and_eq_true, decide_eq_true_eq]

/-- C4 counterexample: with the triple built exactly as the claim words it —
only *non-numeric or missing* fields coerce to 0, a numeric field keeps its
value — the claimed equivalence fails at `current = "1"`,
`latest = "18446744073709551616"` (= 2^64): the claimed ordering says an
update is needed, but the code's u64 parse overflows, coerces the field to 0
and reports none. -/
theorem c4_counterexample :
    needs_update "1".toList "18446744073709551616".toList = false ∧
    lexGt (claimTriple "18446744073709551616".toList) (claimTriple "1".toList) := by
  constructor
  · decide
  · decide

/-- C5 (amended): the workflow rewrite is idempotent for every content string
whenever the package name contains no `|` and the new version contains no `|`
and no `"` (a new version containing a quote or pipe can itself create or
split matches, defeating idempotence — see the counterexample). -/
theorem c5_rewrite_idempotent (c p v : Chars) (hp : '|' ∉ p) (hvp : '|' ∉ v)
    (hvq : '"' ∉ v) :
    patch_workflow_sed (patch_workflow_sed c p v) p v = patch_workflow_sed c p v :=
  pws_idem_aux p v hp hvp hvq c.length c le_rfl

theorem c5_rewrite_idempotent_witness :
    patch_workflow_sed
        (patch_workflow_sed ['x', '|', 'p', ' ', '=', ' ', '"', '1', '"', 'y'] ['p']
          ['2', '.', '0'])
        ['p'] ['2', '.', '0'] =
      patch_workflow_sed ['x', '|', 'p', ' ', '=', ' ', '"', '1', '"', 'y'] ['p']
        ['2', '.', '0'] :=
  c5_rewrite_idempotent _ _ _ (by decide) (by decide) (by decide)

/-- C5 counterexample: with `new_version = 0"x` (containing a quote), applying
the rewrite twice differs from applying it once on content `|p = "1"` with
package name `p`. -/
theorem c5_counterexample :
    patch_workflow_sed
        (patch_workflow_sed ['|', 'p', ' ', '=', ' ', '"', '1', '"'] ['p'] ['0', '"', 'x'])
        ['p'] ['0', '"', 'x'] ≠
      patch_workflow_sed ['|', 'p', ' ', '=', ' ', '"', '1', '"'] ['p'] ['0', '"', 'x'] := by
  have h1 : patch_workflow_sed ['|', 'p', ' ', '=', ' ', '"', '1', '"'] ['p'] ['0', '"', 'x'] =
      ['|', 'p', ' ', '=', ' ', '"', '0', '"', 'x', '"'] := by
    rw [pws_some (show tryMatch ['p'] ['|', 'p', ' ', '=', ' ', '"', '1', '"'] =
      some (['1'], []) from by decide), pws_nil]
    decide
  rw [h1]
  have h2 : patch_workflow_sed ['|', 'p', ' ', '=', ' ', '"', '0', '"', 'x', '"'] ['p']
      ['0', '"', 'x'] =
      ['|', 'p', ' ', '=', ' ', '"', '0', '"', 'x', '"', 'x', '"'] := by
    rw [pws_some (show tryMatch ['p'] ['|', 'p', ' ', '=', ' ', '"', '0', '"', 'x', '"'] =
        some (['0'], ['x', '"']) from by decide),
      pws_none (by decide), pws_none (by decide), pws_nil]
    decide
  rw [h2]
  decide

/-- C6: the workflow rewrite never fails (it is a total function); the content
decomposes into single unmatched characters and matches of the pattern — a
pipe, the literal package name, ` = `, a double-quoted version beginning with
a digit — joining the original segments gives back the input byte for byte,
and the rewrite equals joining the segments with each matched version
replaced by the new version (every occurrence rewritten, all non-matching
content untouched, other packages' patterns included); when no suffix of the
content matches the pattern the result is the input, byte for byte. -/
theorem c6_rewrite_total_frame (c p v : Chars) :
    joinSegs (segOrig p) (sedSplit c p) = c ∧
    patch_workflow_sed c p v = joinSegs (segNew p v) (sedSplit c p) ∧
    ((∀ m, tryMatch p (c.drop m) = none) → patch_workflow_sed c p v = c) ∧
    (∀ ver, Seg.occ ver ∈ sedSplit c p →
      (∃ d t, ver = d :: t ∧ d.isDigit = true) ∧ ∀ x ∈ ver, x ≠ '"') :=
  ⟨joinSegs_orig p c.length c le_rfl,
   pws_eq_joinSegs p v c.length c le_rfl,
   fun hno => pws_no_occ p v c.length c le_rfl hno,
   fun ver hv => sedSplit_occ_props p c.length c le_rfl ver hv⟩

theorem c6_rewrite_total_frame_witness :
    patch_workflow_sed ['a', 'b'] ['p'] ['2'] = ['a', 'b'] :=
  (c6_rewrite_total_frame ['a', 'b'] ['p'] ['2']).2.2.1 (by
    intro m
    match m with
    | 0 => decide
    | 1 => decide
    | n + 2 =>
      rw [List.drop_eq_nil_of_le (by simp)]
      exact tryMatch_nil ['p'])

deriving instance DecidableEq for Except

/-- C2: if the remote-API (gh CLI) attempt succeeds, the result is
`Done(RemoteApi, sha)` and the local attempt is never started; if it fails
and no checkout path was supplied, the result is `NoFallbackAvailable`; if it
fails and a checkout path was supplied, exactly one local-checkout attempt is
made, and its failure is terminal `LocalCommitFailed` with no further
fallback. -/
theorem c2_commit_fallback_policy (org repo file_path content message : Chars)
    (ghEnv : GhEnv) (localEnv : LocalEnv) (base : Option Chars) :
    (∀ sha,
      commit_via_gh_cli ghEnv (org ++ '/' :: repo) file_path content message = .ok sha →
      commit_file org repo file_path content message ghEnv localEnv base =
        (.ok ⟨org ++ '/' :: repo, file_path, .GhCli, sha⟩, [.remoteApi])) ∧
    (isOkE (commit_via_gh_cli ghEnv (org ++ '/' :: repo) file_path content message)
        = false →
      (base = none →
        commit_file org repo file_path content message ghEnv localEnv base =
          (.error .noFallbackAvailable, [.remoteApi])) ∧
      (∀ b, base = some b →
        (commit_file org repo file_path content message ghEnv localEnv base).2 =
          [.remoteApi, .localCheckout] ∧
        (isOkE (commit_via_local_git localEnv) = false →
          commit_file org repo file_path content message ghEnv localEnv base =
            (.error .localCommitFailed, [.remoteApi, .localCheckout])))) := by
  cases hg : commit_via_gh_cli ghEnv (org ++ '/' :: repo) file_path content message with
  | ok sha =>
    refine ⟨?_, ?_⟩
    · intro sha' hs
      injection hs with heq
      subst heq
      simp [commit_file, hg]
    · intro hbad
      simp [isOkE] at hbad
  | error e =>
    refine ⟨?_, ?_⟩
    · intro sha' hs
      exact absurd hs (by simp)
    · intro _
      refine ⟨?_, ?_⟩
      · intro hb
        subst hb
        simp [commit_file, hg]
      · intro b hb
        subst hb
        cases hl : commit_via_local_git localEnv with
        | ok sha =>
          refine ⟨by simp [commit_file, hg, hl], ?_⟩
          intro hbad
          simp [isOkE] at hbad
        | error e2 =>
          exact ⟨by simp [commit_file, hg, hl], fun _ => by simp [commit_file, hg, hl]⟩

theorem c2_commit_fallback_policy_witness :
    commit_file ['o'] ['r'] ['f'] ['c'] ['m']
        ⟨.completed false [] [], fun _ => .failed⟩
        ⟨true, true, some true, some true, some true, .completed true ['a'] []⟩
        none =
      (.error .noFallbackAvailable, [.remoteApi]) :=
  ((c2_commit_fallback_policy ['o'] ['r'] ['f'] ['c'] ['m']
      ⟨.completed false [] [], fun _ => .failed⟩
      ⟨true, true, some true, some true, some true, .completed true ['a'] []⟩
      none).2 rfl).1 rfl

/-- C3 (amended): in the local-checkout attempt, `add`, `commit` and `push`
exiting non-zero (and any spawn failure, rev-parse's included) each make the
whole attempt a failure; but a `rev-parse --short HEAD` that spawns and exits
*non-zero* does **not** fail the attempt — the code never checks its exit
status — and a successful attempt returns `Done(LocalCheckout, id)` where
`id` is the trimmed stdout of rev-parse, which may be empty. -/
theorem c3_local_commit_steps (env : LocalEnv) (hd : env.createDirsOk = true)
    (hw : env.writeOk = true) :
    (env.addRun = some false →
      commit_via_local_git env = .error (.addFailed .nonzero)) ∧
    (env.addRun = some true → env.commitRun = some false →
      commit_via_local_git env = .error (.commitFailed .nonzero)) ∧
    (env.addRun = some true → env.commitRun = some true → env.pushRun = some false →
      commit_via_local_git env = .error (.pushFailed .nonzero)) ∧
    (env.addRun = some true → env.commitRun = some true → env.pushRun = some true →
      env.revParse = .failed →
      commit_via_local_git env = .error .revParseSpawn) ∧
    (∀ ok out err, env.addRun = some true → env.commitRun = some true →
      env.pushRun = some true → env.revParse = .completed ok out err →
      commit_via_local_git env = .ok (trimChars out)) ∧
    (∀ ghEnv org repo fp ct msg b sha,
      isOkE (commit_via_gh_cli ghEnv (org ++ '/' :: repo) fp ct msg) = false →
      commit_via_local_git env = .ok sha →
      commit_file org repo fp ct msg ghEnv env (some b) =
        (.ok ⟨org ++ '/' :: repo, fp, .LocalGit, sha⟩, [.remoteApi, .localCheckout])) := by
  refine ⟨?_, ?_, ?_, ?_, ?_, ?_⟩
  · intro h1
    simp [commit_via_local_git, hd, hw, h1, run_git]
  · intro h1 h2
    simp [commit_via_local_git, hd, hw, h1, h2, run_git]
  · intro h1 h2 h3
    simp [commit_via_local_git, hd, hw, h1, h2, h3, run_git]
  · intro h1 h2 h3 h4
    simp [commit_via_local_git, hd, hw, h1, h2, h3, h4, run_git]
  · intro ok out err h1 h2 h3 h4
    simp [commit_via_local_git, hd, hw, h1, h2, h3, h4, run_git]
  · intro ghEnv org repo fp ct msg b sha hg hl
    cases hge : commit_via_gh_cli ghEnv (org ++ '/' :: repo) fp ct msg with
    | ok s =>
      rw [hge] at hg
      simp [isOkE] at hg
    | error e => simp [commit_file, hge, hl]

theorem c3_local_commit_steps_witness :
    commit_via_local_git ⟨true, true, some false, some true, some true,
        .completed true ['a'] []⟩ =
      .error (.addFailed .nonzero) :=
  (c3_local_commit_steps ⟨true, true, some false, some true, some true,
    .completed true ['a'] []⟩ rfl rfl).1 rfl

/-- C3 counterexample: with `add`, `commit`, `push` succeeding but
`rev-parse --short HEAD` exiting non-zero with empty stdout, the claim says
the local attempt is a failure; the code instead succeeds — and returns
`Done(LocalCheckout, "")` with an *empty* commit identifier, violating both
halves of the claim. -/
theorem c3_counterexample :
    commit_file ['o'] ['r'] ['f'] ['c'] ['m']
        ⟨.completed false [] [], fun _ => .failed⟩
        ⟨true, true, some true, some true, some true, .completed false [] []⟩
        (some ['b']) =
      (.ok ⟨['o', '/', 'r'], ['f'], .LocalGit, []⟩, [.remoteApi, .localCheckout]) := by
  rfl

/-- C9: the strategy field of a successful `commit_file` is the strategy whose
attempt actually succeeded: `GhCli` exactly when the remote attempt succeeded,
`LocalGit` exactly when the remote attempt failed and the local-checkout
attempt succeeded — never the strategy merely attempted first. -/
theorem c9_strategy_provenance (org repo file_path content message : Chars)
    (ghEnv : GhEnv) (localEnv : LocalEnv) (base : Option Chars) (r : CommitResult)
    (h : (commit_file org repo file_path content message ghEnv localEnv base).1 =
      .ok r) :
    (r.strategy = .GhCli ↔
      isOkE (commit_via_gh_cli ghEnv (org ++ '/' :: repo) file_path content message)
        = true) ∧
    (r.strategy = .LocalGit ↔
      (isOkE (commit_via_gh_cli ghEnv (org ++ '/' :: repo) file_path content message)
          = false ∧
        isOkE (commit_via_local_git localEnv) = true)) := by
  unfold commit_file at h
  simp only [] at h
  cases hg : commit_via_gh_cli ghEnv (org ++ '/' :: repo) file_path content message with
  | ok sha =>
    rw [hg] at h
    simp only [Except.ok.injEq] at h
    subst h
    simp [isOkE, hg]
  | error e =>
    rw [hg] at h
    cases base with
    | none => simp at h
    | some b =>
      cases hl : commit_via_local_git localEnv with
      | ok sha =>
        rw [hl] at h
        simp only [Except.ok.injEq] at h
        subst h
        simp [isOkE, hg, hl]
      | error e2 =>
        rw [hl] at h
        simp at h

theorem c9_strategy_provenance_witness :
    (⟨['o', '/', 'r'], ['f'], CommitStrategy.GhCli, ['s']⟩ : CommitResult).strategy =
      CommitStrategy.GhCli ↔
      isOkE (commit_via_gh_cli
        ⟨.completed true ['s'] [], fun _ => .completed true ['s'] []⟩
        (['o'] ++ '/' :: ['r']) ['f'] ['c'] ['m']) = true :=
  (c9_strategy_provenance ['o'] ['r'] ['f'] ['c'] ['m']
    ⟨.completed true ['s'] [], fun _ => .completed true ['s'] []⟩
    ⟨true, true, some true, some true, some true, .completed true ['a'] []⟩
    none ⟨['o', '/', 'r'], ['f'], .GhCli, ['s']⟩ rfl).1

/-- The dependency entry is a table (inline or block) containing a `path`
key. -/
def entryHasPath : DepEntry → Bool
  | .asValue (.vinline _ es _) => (lookupKVs es pathKey).isSome
  | .asSub st => (lookupKVs st.kvs pathKey).isSome
  | .asValue (.scal _) => false

/-- C7: whenever package `p`'s dependency entry is a table containing a path
reference, `current_dep_version` returns none — even when the same table also
contains a version field. -/
theorem c7_path_dep_reads_none (doc : Doc) (dep : Chars) (e : DepEntry)
    (h : getDepFromDoc doc dep = some e) (hp : entryHasPath e = true) :
    current_dep_version doc dep = none := by
  unfold current_dep_version
  rw [h]
  cases e with
  | asValue v =>
    cases v with
    | scal s => simp [entryHasPath] at hp
    | vinline pre es suf =>
      simp only [entryHasPath] at hp
      simp [hp]
  | asSub st =>
    simp only [entryHasPath] at hp
    simp [hp]

/-- An inline dependency table with both a `path` and a `version` key, used
as concrete instantiation for the TOML claims. -/
def pathVerDoc : Doc :=
  [(⟨[], "dependencies".toList, []⟩,
    .itemTable [] "dependencies".toList []
      [(⟨[], "sdk".toList, [' ']⟩,
        .vinline [' ']
          [(⟨[' '], "path".toList, [' ']⟩, .sstr [' '] "../sdk".toList []),
           (⟨[' '], "version".toList, [' ']⟩, .sstr [' '] "0.1".toList [' '])]
          [])]
      [])]

theorem c7_path_dep_reads_none_witness :
    current_dep_version pathVerDoc ("sdk".toList) = none :=
  c7_path_dep_reads_none pathVerDoc ("sdk".toList)
    (.asValue (.vinline [' ']
      [(⟨[' '], "path".toList, [' ']⟩, .sstr [' '] "../sdk".toList []),
       (⟨[' '], "version".toList, [' ']⟩, .sstr [' '] "0.1".toList [' '])]
      []))
    (by rfl) (by rfl)

/-- The patch result is one of the two `NotFoundError` contexts. -/
def isNotFoundRes : Except PErr Doc → Bool
  | .error .noDepsTable => true
  | .error .depNotFound => true
  | _ => false

/-- The dependency entry is neither a bare string nor a recognized table:
a non-string scalar (integer, boolean, array, datetime, …). -/
def entryBadShape : DepEntry → Bool
  | .asValue (.scal (.sother _ _ _)) => true
  | _ => false

theorem patchDepItem_notFound (it : Item) (dep v2 : Chars)
    (h : getDep it dep = none) : patchDepItem it dep v2 = .error .depNotFound := by
  cases it with
  | itemV v =>
    cases v with
    | scal s => rfl
    | vinline pre es suf =>
      simp only [getDep] at h
      cases hes : lookupKVs es dep with
      | some s => rw [hes] at h; simp at h
      | none =>
        simp [patchDepItem, patchScalarEntries_notFound es dep v2 hes, Except.map]
  | itemTable pre inner suf kvs subs =>
    simp only [getDep] at h
    cases hk : lookupKVs kvs dep with
    | some v => rw [hk] at h; simp at h
    | none =>
      rw [hk] at h
      cases hs : lookupKVs subs dep with
      | some st => rw [hs] at h; simp at h
      | none =>
        simp [patchDepItem, patchKVs_notFound kvs dep v2 hk,
          patchSubs_notFound subs dep v2 hs]

/-- C8: `patch_cargo_toml` fails with a `NotFoundError` on every manifest
without a `dependencies` key and on every manifest whose dependency table
lacks the named package, and fails with `ShapeError` on every manifest whose
entry is neither a bare version string nor a recognized table form. -/
theorem c8_patch_error_taxonomy (doc : Doc) (dep v2 : Chars) :
    (lookupKVs doc depsKey = none →
      patch_cargo_toml doc dep v2 = .error .noDepsTable) ∧
    (∀ it, lookupKVs doc depsKey = some it → getDep it dep = none →
      patch_cargo_toml doc dep v2 = .error .depNotFound) ∧
    (∀ e, getDepFromDoc doc dep = some e → entryBadShape e = true →
      patch_cargo_toml doc dep v2 = .error .shape) := by
  refine ⟨(patch_cargo_toml_spec doc dep v2).1, ?_, ?_⟩
  · intro it hit hdep
    rw [(patch_cargo_toml_spec doc dep v2).2 it hit]
    rw [patchDepItem_notFound it dep v2 hdep]
    rfl
  · intro e he hbad
    unfold getDepFromDoc at he
    cases hit : lookupKVs doc depsKey with
    | none => rw [hit] at he; cases he
    | some it =>
      rw [hit] at he
      have he : getDep it dep = some e := he
      rw [(patch_cargo_toml_spec doc dep v2).2 it hit]
      cases it with
      | itemV v =>
        cases v with
        | scal s => simp [getDep] at he
        | vinline pre es suf =>
          simp only [getDep] at he
          cases hes : lookupKVs es dep with
          | none => rw [hes] at he; simp at he
          | some s =>
            rw [hes] at he
            simp only [Option.map, Option.some.injEq] at he
            subst he
            cases s with
            | sstr a b c => simp [entryBadShape] at hbad
            | sother a b c =>
              simp [patchDepItem, patchScalarEntries_shape es dep v2 a b c hes,
                Except.map]
      | itemTable pre inner suf kvs subs =>
        simp only [getDep] at he
        cases hk : lookupKVs kvs dep with
        | some v =>
          rw [hk] at he
          simp only [Option.some.injEq] at he
          subst he
          cases v with
          | scal s =>
            cases s with
            | sstr a b c => simp [entryBadShape] at hbad
            | sother a b c =>
              simp [patchDepItem, patchKVs_found kvs dep v2 _ hk, patchDepTValue,
                Except.map]
          | vinline a b c => simp [entryBadShape] at hbad
        | none =>
          rw [hk] at he
          cases hs : lookupKVs subs dep with
          | none => rw [hs] at he; simp at he
          | some st =>
            rw [hs] at he
            simp only [Option.map, Option.some.injEq] at he
            subst he
            simp [entryBadShape] at hbad

/-- A manifest whose dependency entry is an integer, used as concrete
`ShapeError` instantiation. -/
def intDepDoc : Doc :=
  [(⟨[], "dependencies".toList, []⟩,
    .itemTable [] "dependencies".toList []
      [(⟨[], "weird".toList, [' ']⟩, .scal (.sother [' '] "5".toList []))]
      [])]

theorem c8_patch_error_taxonomy_witness :
    patch_cargo_toml ([] : Doc) ("x".toList) ("1".toList) = .error .noDepsTable ∧
    patch_cargo_toml intDepDoc ("missing".toList) ("1".toList) = .error .depNotFound ∧
    patch_cargo_toml intDepDoc ("weird".toList) ("1".toList) = .error .shape :=
  ⟨(c8_patch_error_taxonomy ([] : Doc) ("x".toList) ("1".toList)).1 rfl,
   (c8_patch_error_taxonomy intDepDoc ("missing".toList) ("1".toList)).2.1 _ rfl rfl,
   (c8_patch_error_taxonomy intDepDoc ("weird".toList) ("1".toList)).2.2
     (.asValue (.scal (.sother [' '] "5".toList []))) rfl rfl⟩

theorem setVersionScalars_lookup (es : List (TKey × Scalar)) (v2 : Chars)
    (h : (lookupKVs es versionKey).isSome = true) :
    lookupKVs (setVersionScalars es v2) versionKey = some (defaultStr v2) := by
  induction es with
  | nil => simp [lookupKVs] at h
  | cons e rest ih =>
    obtain ⟨k, s⟩ := e
    by_cases hk : k.name = versionKey
    · simp [setVersionScalars, lookupKVs, hk]
    · simp only [lookupKVs, if_neg hk] at h
      simp only [setVersionScalars, if_neg hk, lookupKVs]
      exact ih h

theorem setVersionScalars_noop (es : List (TKey × Scalar)) (v2 : Chars)
    (h : lookupKVs es versionKey = none) : setVersionScalars es v2 = es := by
  induction es with
  | nil => rfl
  | cons e rest ih =>
    obtain ⟨k, s⟩ := e
    by_cases hk : k.name = versionKey
    · simp [lookupKVs, hk] at h
    · simp only [lookupKVs, if_neg hk] at h
      simp [setVersionScalars, if_neg hk, ih h]

theorem setVersionKVs_lookup (kvs : List (TKey × TValue)) (v2 : Chars)
    (h : (lookupKVs kvs versionKey).isSome = true) :
    lookupKVs (setVersionKVs kvs v2) versionKey = some (.scal (defaultStr v2)) := by
  induction kvs with
  | nil => simp [lookupKVs] at h
  | cons e rest ih =>
    obtain ⟨k, v⟩ := e
    by_cases hk : k.name = versionKey
    · simp [setVersionKVs, lookupKVs, hk]
    · simp only [lookupKVs, if_neg hk] at h
      simp only [setVersionKVs, if_neg hk, lookupKVs]
      exact ih h

theorem setVersionKVs_noop (kvs : List (TKey × TValue)) (v2 : Chars)
    (h : lookupKVs kvs versionKey = none) : setVersionKVs kvs v2 = kvs := by
  induction kvs with
  | nil => rfl
  | cons e rest ih =>
    obtain ⟨k, v⟩ := e
    by_cases hk : k.name = versionKey
    · simp [lookupKVs, hk] at h
    · simp only [lookupKVs, if_neg hk] at h
      simp [setVersionKVs, if_neg hk, ih h]

theorem replaceKVs_same {α : Type} (l : List (TKey × α)) (n : Chars) (x : α)
    (h : lookupKVs l n = some x) : replaceKVs l n x = l := by
  induction l with
  | nil => rfl
  | cons e rest ih =>
    obtain ⟨k, x'⟩ := e
    by_cases hk : k.name = n
    · simp only [lookupKVs, if_pos hk, Option.some.injEq] at h
      subst h
      simp [replaceKVs, if_pos hk]
    · simp only [lookupKVs, if_neg hk] at h
      simp [replaceKVs, if_neg hk, ih h]

/-- C10 (implicit): `patch_cargo_toml` does not exempt local-path
dependencies.  For every manifest in which package `p`'s entry is a table —
inline or block — the patch succeeds whenever a `version` key is present,
rewriting that version field even when a `path` key is present too (while
`current_dep_version` returns none for such path entries — the asymmetry);
and when the table has no `version` key, the patch succeeds and returns the
document unchanged. -/
theorem c10_patch_ignores_path (doc : Doc) (dep v2 : Chars) :
    (∀ pre es suf,
      getDepFromDoc doc dep = some (.asValue (.vinline pre es suf)) →
      ((lookupKVs es pathKey).isSome = true → current_dep_version doc dep = none) ∧
      ((lookupKVs es versionKey).isSome = true →
        ∃ doc2, patch_cargo_toml doc dep v2 = .ok doc2 ∧
          getDepFromDoc doc2 dep =
            some (.asValue (.vinline pre (setVersionScalars es v2) suf)) ∧
          lookupKVs (setVersionScalars es v2) versionKey = some (defaultStr v2)) ∧
      (lookupKVs es versionKey = none →
        patch_cargo_toml doc dep v2 = .ok doc)) ∧
    (∀ st,
      getDepFromDoc doc dep = some (.asSub st) →
      ((lookupKVs st.kvs pathKey).isSome = true →
        current_dep_version doc dep = none) ∧
      ((lookupKVs st.kvs versionKey).isSome = true →
        ∃ doc2, patch_cargo_toml doc dep v2 = .ok doc2 ∧
          getDepFromDoc doc2 dep =
            some (.asSub { st with kvs := setVersionKVs st.kvs v2 }) ∧
          lookupKVs (setVersionKVs st.kvs v2) versionKey =
            some (.scal (defaultStr v2))) ∧
      (lookupKVs st.kvs versionKey = none →
        patch_cargo_toml doc dep v2 = .ok doc)) := by
  constructor
  · intro pre es suf he
    have hoc : entryHasPath (.asValue (.vinline pre es suf)) = true →
        current_dep_version doc dep = none :=
      c7_path_dep_reads_none doc dep _ he
    unfold getDepFromDoc at he
    cases hit : lookupKVs doc depsKey with
    | none => rw [hit] at he; cases he
    | some it =>
      rw [hit] at he
      have he : getDep it dep = some (.asValue (.vinline pre es suf)) := he
      -- the inline-table entry can only live among the key-values of a
      -- standard dependencies table
      cases it with
      | itemV v =>
        cases v with
        | scal s => simp [getDep] at he
        | vinline pre2 es2 suf2 =>
          simp only [getDep] at he
          cases hes : lookupKVs es2 dep with
          | none => rw [hes] at he; simp at he
          | some s =>
            rw [hes] at he
            simp only [Option.map, Option.some.injEq] at he
            cases he
      | itemTable pre2 inner2 suf2 kvs subs =>
        simp only [getDep] at he
        cases hk : lookupKVs kvs dep with
        | none =>
          rw [hk] at he
          cases hs : lookupKVs subs dep with
          | none => rw [hs] at he; simp at he
          | some st =>
            rw [hs] at he
            simp only [Option.map, Option.some.injEq] at he
            cases he
        | some v =>
          rw [hk] at he
          simp only [Option.some.injEq] at he
          have hv : v = .vinline pre es suf := by
            cases he
            rfl
          subst hv
          refine ⟨fun hpath => hoc (by simp [entryHasPath, hpath]), ?_, ?_⟩
          · intro hver
            refine ⟨replaceKVs doc depsKey
              (.itemTable pre2 inner2 suf2
                (replaceKVs kvs dep (.vinline pre (setVersionScalars es v2) suf))
                subs), ?_, ?_, ?_⟩
            · rw [(patch_cargo_toml_spec doc dep v2).2 _ hit]
              simp [patchDepItem, patchKVs_found kvs dep v2 _ hk, patchDepTValue,
                Except.map]
            · unfold getDepFromDoc
              rw [lookup_replaceKVs doc depsKey _ (by simp [hit])]
              have hlk : lookupKVs
                  (replaceKVs kvs dep (.vinline pre (setVersionScalars es v2) suf))
                  dep = some (.vinline pre (setVersionScalars es v2) suf) :=
                lookup_replaceKVs kvs dep _ (by simp [hk])
              simp [getDep, hlk]
            · exact setVersionScalars_lookup es v2 hver
          · intro hnover
            rw [(patch_cargo_toml_spec doc dep v2).2 _ hit]
            simp [patchDepItem, patchKVs_found kvs dep v2 _ hk, patchDepTValue,
              Except.map, setVersionScalars_noop es v2 hnover,
              replaceKVs_same kvs dep _ hk, replaceKVs_same doc depsKey _ hit]
  · intro st he
    have hoc : entryHasPath (.asSub st) = true →
        current_dep_version doc dep = none :=
      c7_path_dep_reads_none doc dep _ he
    unfold getDepFromDoc at he
    cases hit : lookupKVs doc depsKey with
    | none => rw [hit] at he; cases he
    | some it =>
      rw [hit] at he
      have he : getDep it dep = some (.asSub st) := he
      cases it with
      | itemV v =>
        cases v with
        | scal s => simp [getDep] at he
        | vinline pre2 es2 suf2 =>
          simp only [getDep] at he
          cases hes : lookupKVs es2 dep with
          | none => rw [hes] at he; simp at he
          | some s =>
            rw [hes] at he
            simp only [Option.map, Option.some.injEq] at he
            cases he
      | itemTable pre2 inner2 suf2 kvs subs =>
        simp only [getDep] at he
        cases hk : lookupKVs kvs dep with
        | some v =>
          rw [hk] at he
          simp only [Option.some.injEq] at he
          cases he
        | none =>
          rw [hk] at he
          cases hs : lookupKVs subs dep with
          | none => rw [hs] at he; simp at he
          | some st' =>
            rw [hs] at he
            simp only [Option.map, Option.some.injEq] at he
            have hst : st' = st := by cases he; rfl
            subst hst
            refine ⟨fun hpath => hoc (by simp [entryHasPath, hpath]), ?_, ?_⟩
            · intro hver
              refine ⟨replaceKVs doc depsKey
                (.itemTable pre2 inner2 suf2 kvs
                  (replaceKVs subs dep { st' with kvs := setVersionKVs st'.kvs v2 })),
                ?_, ?_, ?_⟩
              · rw [(patch_cargo_toml_spec doc dep v2).2 _ hit]
                simp [patchDepItem, patchKVs_notFound kvs dep v2 hk,
                  patchSubs_found subs dep v2 _ hs, Except.map]
              · unfold getDepFromDoc
                rw [lookup_replaceKVs doc depsKey _ (by simp [hit])]
                have hlk : lookupKVs
                    (replaceKVs subs dep { st' with kvs := setVersionKVs st'.kvs v2 })
                    dep = some { st' with kvs := setVersionKVs st'.kvs v2 } :=
                  lookup_replaceKVs subs dep _ (by simp [hs])
                simp [getDep, patchKVs_notFound kvs dep v2 hk, hk, hlk]
              · exact setVersionKVs_lookup st'.kvs v2 hver
            · intro hnover
              rw [(patch_cargo_toml_spec doc dep v2).2 _ hit]
              have hnoop : { st' with kvs := setVersionKVs st'.kvs v2 } = st' := by
                have := setVersionKVs_noop st'.kvs v2 hnover
                cases st'
                simp at this ⊢
                exact this
              simp [patchDepItem, patchKVs_notFound kvs dep v2 hk,
                patchSubs_found subs dep v2 _ hs, Except.map, hnoop,
                replaceKVs_same subs dep _ hs, replaceKVs_same doc depsKey _ hit]

/-- The entry list of `pathVerDoc`'s inline dependency table. -/
def pvEntries : List (TKey × Scalar) :=
  [(⟨[' '], "path".toList, [' ']⟩, .sstr [' '] "../sdk".toList []),
   (⟨[' '], "version".toList, [' ']⟩, .sstr [' '] "0.1".toList [' '])]

theorem c10_patch_ignores_path_witness :
    current_dep_version pathVerDoc ("sdk".toList) = none ∧
    (∃ doc2,
      patch_cargo_toml pathVerDoc ("sdk".toList) ("0.2".toList) = .ok doc2 ∧
      getDepFromDoc doc2 ("sdk".toList) =
        some (.asValue (.vinline [' ']
          (setVersionScalars pvEntries ("0.2".toList)) [])) ∧
      lookupKVs (setVersionScalars pvEntries ("0.2".toList)) versionKey =
        some (defaultStr ("0.2".toList))) := by
  have h := (c10_patch_ignores_path pathVerDoc ("sdk".toList) ("0.2".toList)).1
    [' '] pvEntries [] (by rfl)
  exact ⟨h.1 (by rfl), h.2.1 (by rfl)⟩

theorem renderDoc_append (a b : Doc) :
    renderDoc (a ++ b) = renderDoc a ++ renderDoc b := by
  induction a with
  | nil => simp [renderDoc]
  | cons e rest ih =>
    obtain ⟨k, it⟩ := e
    simp [renderDoc, ih]

theorem renderKVs_append (a b : List (TKey × TValue)) :
    renderKVs (a ++ b) = renderKVs a ++ renderKVs b := by
  induction a with
  | nil => simp [renderKVs]
  | cons e rest ih =>
    obtain ⟨k, v⟩ := e
    simp [renderKVs, ih]

/-- C1 (amended): for every manifest in which package `p`'s dependency entry
is a bare version string, `patch_cargo_toml` succeeds, replacing exactly that
entry's value by the new version with *default* decor (one space before the
opening quote, nothing after the closing quote), and `current_dep_version` of
the result yields the new version; when the original value already had the
default decor — a single space before the opening quote and no trailing
text (no comment) after the closing quote — every byte of the serialized
output other than the version token between the quotes is identical to the
corresponding byte of the input (comments elsewhere, key ordering and
unrelated entries preserved verbatim).  An original value with non-default
decor loses it — see the counterexample. -/
theorem c1_patch_bare_string (d1 d2 : Doc) (k kd : TKey)
    (pre inner suf : Chars) (kvs1 kvs2 : List (TKey × TValue))
    (subs : List (TKey × SubTable)) (opre olit osuf v2 : Chars)
    (hk : k.name = depsKey) (h1 : ∀ e ∈ d1, e.1.name ≠ depsKey)
    (h2 : ∀ e ∈ kvs1, e.1.name ≠ kd.name) :
    patch_cargo_toml
        (d1 ++ (k, .itemTable pre inner suf
          (kvs1 ++ (kd, .scal (.sstr opre olit osuf)) :: kvs2) subs) :: d2)
        kd.name v2 =
      .ok (d1 ++ (k, .itemTable pre inner suf
          (kvs1 ++ (kd, .scal (defaultStr v2)) :: kvs2) subs) :: d2) ∧
    current_dep_version
        (d1 ++ (k, .itemTable pre inner suf
          (kvs1 ++ (kd, .scal (defaultStr v2)) :: kvs2) subs) :: d2) kd.name =
      some v2 ∧
    (opre = [' '] → osuf = [] →
      ∃ A B,
        renderDoc (d1 ++ (k, .itemTable pre inner suf
          (kvs1 ++ (kd, .scal (.sstr opre olit osuf)) :: kvs2) subs) :: d2) =
          A ++ '"' :: olit ++ '"' :: B ∧
        renderDoc (d1 ++ (k, .itemTable pre inner suf
          (kvs1 ++ (kd, .scal (defaultStr v2)) :: kvs2) subs) :: d2) =
          A ++ '"' :: v2 ++ '"' :: B) := by
  have hlook : lookupKVs (d1 ++ (k, Item.itemTable pre inner suf
      (kvs1 ++ (kd, .scal (.sstr opre olit osuf)) :: kvs2) subs) :: d2) depsKey =
      some (.itemTable pre inner suf
        (kvs1 ++ (kd, .scal (.sstr opre olit osuf)) :: kvs2) subs) :=
    lookup_append_fresh d1 k _ d2 depsKey h1 hk
  have hlk : lookupKVs (kvs1 ++ (kd, TValue.scal (.sstr opre olit osuf)) :: kvs2)
      kd.name = some (.scal (.sstr opre olit osuf)) :=
    lookup_append_fresh kvs1 kd _ kvs2 kd.name h2 rfl
  refine ⟨?_, ?_, ?_⟩
  · rw [(patch_cargo_toml_spec _ kd.name v2).2 _ hlook]
    have hpk : patchKVs (kvs1 ++ (kd, .scal (.sstr opre olit osuf)) :: kvs2)
        kd.name v2 =
        some (.ok (kvs1 ++ (kd, .scal (defaultStr v2)) :: kvs2)) := by
      rw [patchKVs_found _ _ _ _ hlk]
      simp only [patchDepTValue, Except.map]
      rw [replace_append_fresh kvs1 kd _ kvs2 kd.name _ h2 rfl]
    have hpd : patchDepItem (.itemTable pre inner suf
        (kvs1 ++ (kd, .scal (.sstr opre olit osuf)) :: kvs2) subs) kd.name v2 =
        .ok (.itemTable pre inner suf
          (kvs1 ++ (kd, .scal (defaultStr v2)) :: kvs2) subs) := by
      simp only [patchDepItem]
      rw [hpk]
      simp [Except.map]
    rw [hpd]
    simp only [Except.map]
    rw [replace_append_fresh d1 k _ d2 depsKey _ h1 hk]
  · have hlook2 : lookupKVs (d1 ++ (k, Item.itemTable pre inner suf
        (kvs1 ++ (kd, .scal (defaultStr v2)) :: kvs2) subs) :: d2) depsKey =
        some (.itemTable pre inner suf
          (kvs1 ++ (kd, .scal (defaultStr v2)) :: kvs2) subs) :=
      lookup_append_fresh d1 k _ d2 depsKey h1 hk
    have hlk2 : lookupKVs (kvs1 ++ (kd, TValue.scal (defaultStr v2)) :: kvs2)
        kd.name = some (.scal (defaultStr v2)) :=
      lookup_append_fresh kvs1 kd _ kvs2 kd.name h2 rfl
    unfold current_dep_version getDepFromDoc
    rw [hlook2]
    simp only [Option.some_bind, getDep]
    rw [hlk2]
    simp [defaultStr, scalarAsStr]
  · intro hopre hosuf
    subst hopre
    subst hosuf
    refine ⟨renderDoc d1 ++ pre ++ '[' :: inner ++ ']' :: suf ++ '\n' ::
      (renderKVs kvs1 ++ kd.pre ++ kd.name ++ kd.suf ++ ['=', ' ']),
      '\n' :: (renderKVs kvs2 ++ renderSubs subs ++ renderDoc d2), ?_, ?_⟩
    · simp [renderDoc_append, renderDoc, renderItem, renderKVs_append, renderKVs,
        renderKV, renderTValue, renderScalar]
    · simp [renderDoc_append, renderDoc, renderItem, renderKVs_append, renderKVs,
        renderKV, renderTValue, renderScalar, defaultStr]

def c1docOrig : Doc :=
  [(⟨[], "dependencies".toList, []⟩,
    .itemTable [] "dependencies".toList []
      [(⟨[], "evo-common".toList, [' ']⟩, .scal (.sstr [' '] "0.2".toList []))]
      [])]

def c1docNew : Doc :=
  [(⟨[], "dependencies".toList, []⟩,
    .itemTable [] "dependencies".toList []
      [(⟨[], "evo-common".toList, [' ']⟩, .scal (.sstr [' '] "0.3".toList []))]
      [])]

theorem c1_patch_bare_string_witness :
    patch_cargo_toml c1docOrig ("evo-common".toList) ("0.3".toList) = .ok c1docNew ∧
    current_dep_version c1docNew ("evo-common".toList) = some ("0.3".toList) := by
  have h := c1_patch_bare_string [] [] ⟨[], "dependencies".toList, []⟩
    ⟨[], "evo-common".toList, [' ']⟩ [] ("dependencies".toList) [] [] [] []
    [' '] ("0.2".toList) [] ("0.3".toList) rfl (by simp) (by simp)
  exact ⟨h.1, h.2.1⟩

/-- C1 counterexample: on the manifest `[dependencies]\nevo-common = "0.2" # pinned\n`
the claim predicts the output `[dependencies]\nevo-common = "0.3" # pinned\n`
(every byte outside the version token preserved, the trailing comment
included); the code's output drops the comment — replacing the entry's value
with `toml_edit::value(new_version)` discards the old value's decor. -/
theorem c1_counterexample :
    renderDoc
        [(⟨[], "dependencies".toList, []⟩,
          .itemTable [] "dependencies".toList []
            [(⟨[], "evo-common".toList, [' ']⟩,
              .scal (.sstr [' '] "0.2".toList (" # pinned".toList)))]
            [])] =
      "[dependencies]\nevo-common = \"0.2\" # pinned\n".toList ∧
    (patch_cargo_toml
        [(⟨[], "dependencies".toList, []⟩,
          .itemTable [] "dependencies".toList []
            [(⟨[], "evo-common".toList, [' ']⟩,
              .scal (.sstr [' '] "0.2".toList (" # pinned".toList)))]
            [])]
        ("evo-common".toList) ("0.3".toList)).map renderDoc =
      .ok ("[dependencies]\nevo-common = \"0.3\"\n".toList) ∧
    ("[dependencies]\nevo-common = \"0.3\"\n".toList : Chars) ≠
      "[dependencies]\nevo-common = \"0.3\" # pinned\n".toList := by
  refine ⟨by decide, by decide, by decide⟩
